import Mathlib

/-!
Verification of the polygon tesselator (`PolygonTesselator` and its helper
functions) of this repository, shallowly embedded in Lean 4.

Modelling conventions:
* JS numbers (doubles) are modelled as exact rationals `ℚ`; the quantization
  performed by `Float32Array` storage is not modelled (buffers hold the exact
  values the JS code computes before storage).  `Math.fround` is modelled as an
  uninterpreted parameter `fr : ℚ → ℚ` wherever the source calls it.
* A `Point` is the JS vertex array (2 or 3 ordinates); a `PRing` is a list of
  points; a `CPoly` is a normalized complex polygon, i.e. a list of rings.
* Typed-array buffers are lists; writing past the end of a typed array is a
  silent no-op in JS, and `List.set` has the same behaviour.
* The external `earcut` triangulation library is an uninterpreted parameter.
* Per-polygon accessor callbacks (`getHeight`, `getColor`) are Lean functions;
  the embedding additionally records the list of polygon indices an accessor
  is invoked on (a call log), mirroring exactly the control flow of the source.
-/

/-- A vertex as the JS code sees it: a list of 2 or 3 ordinates. -/
abbrev Point : Type := List ℚ

/-- A ring: ordered sequence of points. -/
abbrev PRing : Type := List Point

/-- A normalized complex polygon: list of rings (ring 0 outer, rest holes). -/
abbrev CPoly : Type := List PRing

/-- The experimental `get(container, i)` helper applied to a vertex array:
JS `get(vertex, k)` yields `undefined` when `k` is out of range; the source
always uses the result in contexts where `undefined`/missing behaves as `0`
(`get(vertex, 2) || 0`, writes of `x`,`y` for well-formed 2/3-ordinate
points), so the embedding returns `0` for a missing ordinate. -/
def jsGet (v : Point) (k : ℕ) : ℚ := (v.get? k).getD 0

namespace Polygon

/-- Modelled from the spec: the `./polygon` module is not under `src/`.
Per §4.1 a normalized polygon is a ComplexPolygon (list of rings); on the
embedding's already-ring-list representation `normalize` is the identity. -/
def normalize (p : CPoly) : CPoly := p

/-- Modelled from the spec: the `./polygon` module is not under `src/`.
`vertexCount(complexPolygon)` (§4.2) is the total number of points over all
rings of the complex polygon. -/
def getVertexCount (p : CPoly) : ℕ := (p.map List.length).sum

/-- Modelled from the spec: the `./polygon` module is not under `src/`.
§4.2 gives the triangle count of a complex polygon with `v` total vertices
and `numRings` rings as `v - 2*numRings + 2*(numRings - 1)`. -/
def getTriangleCount (p : CPoly) : ℤ :=
  (getVertexCount p : ℤ) - 2 * (p.length : ℤ) + 2 * ((p.length : ℤ) - 1)

end Polygon

/-- Source `getPickingColor(index)`: base-256 little-endian encoding of
`index + 1` as a 3-byte triple. -/
def getPickingColor (index : ℕ) : List ℕ :=
  [(index + 1) % 256, ((index + 1) / 256) % 256, ((index + 1) / 256 / 256) % 256]

/-- Decoding of a picking color triple as described by the spec:
`r + g*256 + b*65536 - 1`. -/
def decodePickingColor (r g b : ℕ) : ℤ :=
  (r : ℤ) + (g : ℤ) * 256 + (b : ℤ) * 65536 - 1

/-- A JS color channel value: either a finite number or not a finite number
(`undefined`, `NaN`, ...), as tested by `Number.isFinite`. -/
abbrev Channel : Type := Option ℤ

/-- Source `parseColor(color)` for array-valued colors: executes
`color[3] = Number.isFinite(color[3]) ? color[3] : 255`.  Writing index 3 of
a JS array of length `< 4` extends it to length 4 (intermediate slots become
holes, i.e. non-finite entries).  The non-array branch of the source (which
rebuilds an array through the experimental `get`) is outside the model:
accessors in scope return channel arrays. -/
def parseColor (color : List Channel) : List Channel :=
  match color.get? 3 with
  | some (some v) => color.set 3 (some v)
  | some none => color.set 3 (some 255)
  | none => color ++ List.replicate (3 - color.length) none ++ [some 255]

/-- Source `DEFAULT_COLOR = [0, 0, 0, 255]`. -/
def DEFAULT_COLOR : List Channel := [some 0, some 0, some 0, some 255]

/-- Storage of one channel into a `Uint8ClampedArray` slot: non-finite values
store as `0`, finite values are clamped to `[0, 255]`. -/
def clampByte (c : Channel) : ℕ :=
  match c with
  | none => 0
  | some v => (max 0 (min 255 v)).toNat

/-- Source `getPointCount(polygons)`: total vertex count of a polygon list. -/
def getPointCount (polygons : List CPoly) : ℕ :=
  polygons.foldl (fun points polygon => points + Polygon.getVertexCount polygon) 0

/-- Source `getTriangleCount(polygons)` (the module-level one): total triangle
count of a polygon list. -/
def getTriangleCountOfSet (polygons : List CPoly) : ℤ :=
  polygons.foldl (fun triangles polygon => triangles + Polygon.getTriangleCount polygon) 0

/-- Source `getPolygonOffsets(polygons)`: `offsets[0] = 0` and
`offsets[i+1] = offsets[i] + vertexCount(polygons[i])`. -/
def getPolygonOffsets (polygons : List CPoly) : List ℕ :=
  (polygons.foldl
    (fun acc polygon =>
      (acc.1 ++ [acc.2 + Polygon.getVertexCount polygon],
       acc.2 + Polygon.getVertexCount polygon))
    ([0], 0)).1

/-- Source `getHoleIndices(complexPolygon)`: `null` unless the polygon has
more than one ring; otherwise the cumulative vertex counts at which each hole
ring starts (the final total is pushed and then popped). -/
def getHoleIndices (complexPolygon : CPoly) : Option (List ℕ) :=
  if 1 < complexPolygon.length then
    some ((complexPolygon.foldl
      (fun acc polygon => (acc.1 ++ [acc.2 + polygon.length], acc.2 + polygon.length))
      ([], 0)).1.dropLast)
  else none

/-- Modelled from the spec: the experimental `flattenVertices` helper is not
under `src/`; it flattens a ring's points into a coordinate list, padding the
third coordinate with `0` (`dimensions = 3`). -/
def flattenVertices (ring : PRing) : List ℚ :=
  (ring.map (fun v => [jsGet v 0, jsGet v 1, jsGet v 2])).flatten

/-- Source `flattenVertices2(nestedArray)` applied to a normalized complex
polygon: every element is a ring (a container), so each is flattened by
`flattenVertices` in order. -/
def flattenVertices2 (complexPolygon : CPoly) : List ℚ :=
  (complexPolygon.map flattenVertices).flatten

/-- The external `earcut` library: `earcut(vertices, holeIndices, dimensions)`
returns a flat list of local triangle vertex indices.  It is not part of this
repository and is kept uninterpreted. -/
abbrev Earcut : Type := List ℚ → Option (List ℕ) → ℕ → List ℕ

/-- Source `calculateSurfaceIndices(complexPolygon)`. -/
def calculateSurfaceIndices (earcut : Earcut) (complexPolygon : CPoly) : List ℕ :=
  earcut (flattenVertices2 complexPolygon) (getHoleIndices complexPolygon) 3

/-- The caller-chosen index-buffer integer width (`Uint16Array` vs
`Uint32Array`). -/
inductive IndexKind : Type
  | uint16 : IndexKind
  | uint32 : IndexKind
deriving DecidableEq

/-- Sequential writes into a buffer: `writeAt buf i vs` models
`buf[i] = vs0; buf[i+1] = vs1; ...` on a typed array (out-of-range writes are
silent no-ops, matching `List.set`). -/
def writeAt (buf : List α) (i : ℕ) : List α → List α
  | [] => buf
  | v :: vs => writeAt (buf.set i v) (i + 1) vs

/-- One polygon of the source `calculateIndices` assembly loop: triangulate
the polygon, then append its local indices, each offset by
`offsets[polygonIndex]`, at the write cursor.  The second component of the
accumulator is the instrumentation log of polygon indices passed to
`calculateSurfaceIndices` (i.e. triangulated) during the call. -/
def indexStep (earcut : Earcut) (offsets : List ℕ)
    (acc : (List ℕ × ℕ) × List ℕ) (ip : ℕ × CPoly) : (List ℕ × ℕ) × List ℕ :=
  let tri := calculateSurfaceIndices earcut ip.2
  let written := tri.foldl
    (fun bi index => (bi.1.set bi.2 (index + offsets.getD ip.1 0), bi.2 + 1))
    (acc.1.1, acc.1.2)
  ((written.1, written.2), acc.2 ++ [ip.1])

/-- Source `calculateIndices({polygons, IndexType})`: check the 16-bit
overflow condition on the index count, then allocate the attribute and run
the assembly loop.  The first component is the assembled global index buffer
(or the thrown error); the second is the triangulation log. -/
def calculateIndices (earcut : Earcut) (polygons : List CPoly)
    (IndexType : IndexKind := IndexKind.uint32) :
    Except String (List ℕ) × List ℕ :=
  if IndexType = IndexKind.uint16 ∧ 65535 < 3 * getTriangleCountOfSet polygons then
    (Except.error "Vertex count exceeds browser limit", [])
  else
    let r := polygons.enum.foldl (indexStep earcut (getPolygonOffsets polygons))
      ((List.replicate (3 * getTriangleCountOfSet polygons).toNat 0, 0), [])
    (Except.ok r.1.1, r.2)

/-- Source `calculatePickingColors({polygons, pointCount})`: per polygon,
`fillArray` broadcasts the 3-byte picking color over the polygon's vertex
slots (`fillArray` is the experimental helper, not under `src/`, modelled from
the spec as writing `count` copies of `source` at `start`), then the write
cursor advances by `color.length * vertexCount`. -/
def calculatePickingColors (polygons : List CPoly) (pointCount : ℕ) : List ℕ :=
  (polygons.enum.foldl
    (fun acc ip =>
      let color := getPickingColor ip.1
      let vertexCount := Polygon.getVertexCount ip.2
      (writeAt acc.1 acc.2 (List.replicate vertexCount color).flatten,
       acc.2 + color.length * vertexCount))
    (List.replicate (pointCount * 3) 0, 0)).1

/-- State of the source `updateColors` loop: the colors buffer, the write
cursor `i`, and the instrumentation log of polygon indices on which the color
accessor has been invoked. -/
structure ColorState : Type where
  colors : List ℕ
  i : ℕ
  log : List ℕ

/-- Source `updateColors({colors}, {polygons, getColor})`: per polygon, call
the accessor once, `parseColor` the result, `fillArray`-broadcast it over the
polygon's vertex slots (clamped by the `Uint8ClampedArray` store), and advance
the cursor by `color.length * vertexCount`. -/
def updateColors (polygons : List CPoly) (getColor : ℕ → List Channel)
    (colors0 : List ℕ) : ColorState :=
  polygons.enum.foldl
    (fun s ip =>
      let color := parseColor (getColor ip.1)
      let vertexCount := Polygon.getVertexCount ip.2
      { colors := writeAt s.colors s.i (List.replicate vertexCount (color.map clampByte)).flatten,
        i := s.i + color.length * vertexCount,
        log := s.log ++ [ip.1] })
    { colors := colors0, i := 0, log := [] }

/-- The local `startVertex` record of the source `updatePositions`:
coordinates of a ring's first vertex, kept to be written into the
next-positions buffers when the ring is finished.  (`xLow`/`yLow` are only
assigned by the source under `fp64`; the model computes them always, and the
source only ever reads them under `fp64`.) -/
structure StartVertex : Type where
  x : ℚ
  y : ℚ
  z : ℚ
  xLow : ℚ
  yLow : ℚ
deriving DecidableEq

/-- Mutable state of the source `updatePositions`: the four buffers, the four
write cursors `i`, `j`, `nextI`, `nextJ`, and the pending `startVertex`. -/
structure UPState : Type where
  positions : List ℚ
  positions64xyLow : List ℚ
  nextPositions : List ℚ
  nextPositions64xyLow : List ℚ
  i : ℕ
  j : ℕ
  nextI : ℕ
  nextJ : ℕ
  startVertex : Option StartVertex
deriving DecidableEq

/-- Source `popStartVertex()`: if a start vertex is pending and extrusion is
on, write it (and under `fp64` its low parts) at the next-positions cursors;
in all cases clear the pending vertex. -/
def popStartVertex (extruded fp64 : Bool) (s : UPState) : UPState :=
  match s.startVertex with
  | some sv =>
    if extruded then
      let s1 : UPState :=
        { s with nextPositions := writeAt s.nextPositions s.nextI [sv.x, sv.y, sv.z],
                 nextI := s.nextI + 3 }
      let s2 : UPState :=
        if fp64 then
          { s1 with nextPositions64xyLow := writeAt s1.nextPositions64xyLow s1.nextJ [sv.xLow, sv.yLow],
                    nextJ := s1.nextJ + 2 }
        else s1
      { s2 with startVertex := none }
    else { s with startVertex := none }
  | none => s

/-- Body of the source `forEachVertex` visitor inside `updatePositions`, for
one vertex `(vertexIndex, vertex)` of a ring (`vertexIndex` is the index
within the ring): write `(x, y, z + height)` at `i`; under `fp64` write the
low parts at `j`; if extruded and not the ring's first vertex, also write into
the next-positions buffers; at the ring's first vertex, pop the previous
ring's start vertex and record this one. -/
def processVertex (extruded fp64 : Bool) (fr : ℚ → ℚ) (height : ℚ)
    (s : UPState) (kv : ℕ × Point) : UPState :=
  let vertexIndex := kv.1
  let vertex := kv.2
  let x := jsGet vertex 0
  let y := jsGet vertex 1
  let z := jsGet vertex 2 + height
  let xLow := x - fr x
  let yLow := y - fr y
  let s1 : UPState := { s with positions := writeAt s.positions s.i [x, y, z], i := s.i + 3 }
  let s2 : UPState :=
    if fp64 then
      { s1 with positions64xyLow := writeAt s1.positions64xyLow s1.j [xLow, yLow], j := s1.j + 2 }
    else s1
  let s3 : UPState :=
    if extruded ∧ 0 < vertexIndex then
      let sa : UPState :=
        { s2 with nextPositions := writeAt s2.nextPositions s2.nextI [x, y, z],
                  nextI := s2.nextI + 3 }
      if fp64 then
        { sa with nextPositions64xyLow := writeAt sa.nextPositions64xyLow sa.nextJ [xLow, yLow],
                  nextJ := sa.nextJ + 2 }
      else sa
    else s2
  if vertexIndex = 0 then
    let s4 := popStartVertex extruded fp64 s3
    { s4 with startVertex := some ⟨x, y, z, xLow, yLow⟩ }
  else s3

/-- One ring of the source `forEachVertex` iteration: the visitor is invoked
on every point with its index within the ring. -/
def processRing (extruded fp64 : Bool) (fr : ℚ → ℚ) (height : ℚ)
    (s : UPState) (ring : PRing) : UPState :=
  ring.enum.foldl (processVertex extruded fp64 fr height) s

/-- One polygon of the source `updatePositions` loop: compute the height once
(`extruded ? getHeight(polygonIndex) : 0`, the accessor call recorded in the
log), then visit every ring. -/
def processPolygon (extruded fp64 : Bool) (fr : ℚ → ℚ) (getHeight : ℕ → ℚ)
    (sl : UPState × List ℕ) (ip : ℕ × CPoly) : UPState × List ℕ :=
  let height := if extruded then getHeight ip.1 else 0
  let log := if extruded then sl.2 ++ [ip.1] else sl.2
  (ip.2.foldl (processRing extruded fp64 fr height) sl.1, log)

/-- Source module-level `updatePositions(attributes, {polygons, getHeight,
extruded, fp64})`: iterate all polygons, then pop the final pending start
vertex.  Also returns the height-accessor call log. -/
def updatePositionsRun (polygons : List CPoly) (getHeight : ℕ → ℚ)
    (extruded fp64 : Bool) (fr : ℚ → ℚ) (s0 : UPState) : UPState × List ℕ :=
  let r := polygons.enum.foldl (processPolygon extruded fp64 fr getHeight) (s0, [])
  (popStartVertex extruded fp64 r.1, r.2)

/-- The `this.attributes` object of `PolygonTesselator`: only `pickingColors`
is set by the constructor; the others are `undefined` (`none`) until the
corresponding pass first allocates them. -/
structure Attributes : Type where
  pickingColors : List ℕ
  positions : Option (List ℚ) := none
  nextPositions : Option (List ℚ) := none
  positions64xyLow : Option (List ℚ) := none
  nextPositions64xyLow : Option (List ℚ) := none
  colors : Option (List ℕ) := none
deriving DecidableEq

/-- The `PolygonTesselator` instance state after construction. -/
structure PolygonTesselator : Type where
  polygons : List CPoly
  pointCount : ℕ
  attributes : Attributes
deriving DecidableEq

/-- Source `PolygonTesselator` constructor: normalize the polygons, count the
points, and compute only the picking colors. -/
def PolygonTesselator.construct (polygons : List CPoly) : PolygonTesselator :=
  let ps := polygons.map Polygon.normalize
  let pointCount := getPointCount ps
  { polygons := ps,
    pointCount := pointCount,
    attributes := { pickingColors := calculatePickingColors ps pointCount } }

/-- Source method `updatePositions({fp64, extruded, getHeight})`: allocate
missing buffers zero-filled at the cached sizes (`pointCount * 3`, and under
`fp64` the low buffers at `pointCount * 2`), then run the module-level
`updatePositions`.  Returns the updated tesselator and the height-accessor
call log. -/
def PolygonTesselator.updatePositions (t : PolygonTesselator)
    (extruded fp64 : Bool) (getHeight : ℕ → ℚ) (fr : ℚ → ℚ) :
    PolygonTesselator × List ℕ :=
  let a := t.attributes
  let s0 : UPState :=
    { positions := a.positions.getD (List.replicate (t.pointCount * 3) 0),
      nextPositions := a.nextPositions.getD (List.replicate (t.pointCount * 3) 0),
      positions64xyLow :=
        if fp64 then a.positions64xyLow.getD (List.replicate (t.pointCount * 2) 0)
        else a.positions64xyLow.getD [],
      nextPositions64xyLow :=
        if fp64 then a.nextPositions64xyLow.getD (List.replicate (t.pointCount * 2) 0)
        else a.nextPositions64xyLow.getD [],
      i := 0, j := 0, nextI := 0, nextJ := 0, startVertex := none }
  let r := updatePositionsRun t.polygons getHeight extruded fp64 fr s0
  ({ t with attributes :=
      { a with positions := some r.1.positions,
               nextPositions := some r.1.nextPositions,
               positions64xyLow :=
                 if fp64 then some r.1.positions64xyLow else a.positions64xyLow,
               nextPositions64xyLow :=
                 if fp64 then some r.1.nextPositions64xyLow else a.nextPositions64xyLow } },
   r.2)

/-- Source accessor `indices()`: recomputes `calculateIndices` on every call
(no `IndexType` is passed, so the `Uint32Array` default applies). -/
def PolygonTesselator.indices (t : PolygonTesselator) (earcut : Earcut) :
    Except String (List ℕ) × List ℕ :=
  calculateIndices earcut t.polygons

/-- Source accessor `positions()`: a plain read of `this.attributes.positions`
(`none` models JS `undefined`). -/
def PolygonTesselator.positionsAttr (t : PolygonTesselator) : Option (List ℚ) :=
  t.attributes.positions

/-- Source accessor `nextPositions()`. -/
def PolygonTesselator.nextPositionsAttr (t : PolygonTesselator) : Option (List ℚ) :=
  t.attributes.nextPositions

/-- Source accessor `positions64xyLow()`. -/
def PolygonTesselator.positions64xyLowAttr (t : PolygonTesselator) : Option (List ℚ) :=
  t.attributes.positions64xyLow

/-- Source accessor `nextPositions64xyLow()`. -/
def PolygonTesselator.nextPositions64xyLowAttr (t : PolygonTesselator) : Option (List ℚ) :=
  t.attributes.nextPositions64xyLow

/-- Source accessor `pickingColors()`. -/
def PolygonTesselator.pickingColorsAttr (t : PolygonTesselator) : List ℕ :=
  t.attributes.pickingColors

/-- Source method `colors({getColor})` (default accessor
`x => DEFAULT_COLOR`): allocate the colors buffer if absent
(`pointCount * 4`, zero-filled) and run `updateColors`, which returns the
buffer.  The result is the final `ColorState`: buffer, cursor and accessor
call log. -/
def PolygonTesselator.colors (t : PolygonTesselator)
    (getColor : ℕ → List Channel := fun _ => DEFAULT_COLOR) : ColorState :=
  updateColors t.polygons getColor
    (t.attributes.colors.getD (List.replicate (t.pointCount * 4) 0))

/-! ## Buffer and list lemmas -/

theorem length_writeAt (vs : List α) : ∀ (buf : List α) (i : ℕ),
    (writeAt buf i vs).length = buf.length := by
  induction vs with
  | nil => intro buf i; rfl
  | cons v vs ih => intro buf i; simp [writeAt, ih]

theorem set_append_len (pre : List α) : ∀ (r : α) (rest : List α) (v : α),
    (pre ++ r :: rest).set pre.length v = pre ++ v :: rest := by
  induction pre with
  | nil => intro r rest v; rfl
  | cons p pre ih => intro r rest v; simp [List.set, ih]

theorem writeAt_spec (vs : List α) : ∀ (pre rest : List α),
    vs.length ≤ rest.length →
    writeAt (pre ++ rest) pre.length vs = pre ++ vs ++ rest.drop vs.length := by
  induction vs with
  | nil => intro pre rest _; simp [writeAt]
  | cons v vs ih =>
    intro pre rest hlen
    match rest with
    | [] => simp at hlen
    | r :: rest' =>
      have h1 : (pre ++ r :: rest').set pre.length v = (pre ++ [v]) ++ rest' := by
        rw [set_append_len]; simp
      have h2 : pre.length + 1 = (pre ++ [v]).length := by simp
      simp only [writeAt, h1, h2]
      rw [ih (pre ++ [v]) rest' (by simpa using hlen)]
      simp [List.drop_succ_cons]

theorem getD_append_left (l1 l2 : List α) (n : ℕ) (d : α) (h : n < l1.length) :
    (l1 ++ l2).getD n d = l1.getD n d := by
  simp [List.getD_eq_getElem?_getD, List.getElem?_append, h]

theorem getD_append_add (l1 l2 : List α) (k : ℕ) (d : α) :
    (l1 ++ l2).getD (l1.length + k) d = l2.getD k d := by
  simp [List.getD_eq_getElem?_getD, List.getElem?_append]

/-- Vertex-chunk indexing: if every chunk of `L` has length `s`, the flat
buffer entry at `s*v + k` is entry `k` of chunk `v`. -/
theorem getD_flatten_chunks : ∀ (L : List (List α)) (s v k : ℕ) (d : α),
    (∀ c ∈ L, c.length = s) → v < L.length → k < s →
    L.flatten.getD (s * v + k) d = (L.getD v []).getD k d := by
  intro L
  induction L with
  | nil => intro s v k d _ hv _; simp at hv
  | cons c L ih =>
    intro s v k d hall hv hk
    have hc : c.length = s := hall c (by simp)
    match v with
    | 0 =>
      simp only [Nat.mul_zero, Nat.zero_add, List.flatten_cons, List.getD_cons_zero]
      exact getD_append_left c L.flatten k d (by omega)
    | v + 1 =>
      have harith : s * (v + 1) + k = c.length + (s * v + k) := by
        rw [hc]; ring
      simp only [List.flatten_cons, List.getD_cons_succ, harith]
      rw [getD_append_add]
      exact ih s v k d (fun x hx => hall x (by simp [hx])) (by simpa using hv) hk

/-- Prefix length of the first `p` groups of a nested list. -/
def prefLen (L : List (List α)) (p : ℕ) : ℕ := ((L.take p).map List.length).sum

/-- Group indexing: the flat buffer entry at `prefLen L p + k` is entry `k`
of group `p`. -/
theorem getD_flatten_group : ∀ (L : List (List α)) (p k : ℕ) (d : α),
    p < L.length → k < (L.getD p []).length →
    L.flatten.getD (prefLen L p + k) d = (L.getD p []).getD k d := by
  intro L
  induction L with
  | nil => intro p k d hp _; simp at hp
  | cons c L ih =>
    intro p k d hp hk
    match p with
    | 0 =>
      simp only [prefLen, List.take_zero, List.map_nil, List.sum_nil, Nat.zero_add,
        List.flatten_cons, List.getD_cons_zero] at *
      exact getD_append_left c L.flatten k d hk
    | p + 1 =>
      have hpl : prefLen (c :: L) (p + 1) = c.length + prefLen L p := by
        simp [prefLen, List.take_succ_cons]
      simp only [List.flatten_cons, List.getD_cons_succ, hpl, Nat.add_assoc]
      rw [getD_append_add]
      exact ih p k d (by simpa using hp) (by simpa using hk)

theorem foldl_add_eq {M : Type} [AddMonoid M] (f : α → M) (ps : List α) :
    ∀ (a : M), ps.foldl (fun x p => x + f p) a = a + (ps.map f).sum := by
  induction ps with
  | nil => intro a; simp
  | cons c t ih => intro a; simp [ih, add_assoc]

theorem getPointCount_eq (polygons : List CPoly) :
    getPointCount polygons = (polygons.map Polygon.getVertexCount).sum := by
  simpa using foldl_add_eq Polygon.getVertexCount polygons 0

theorem getTriangleCountOfSet_eq (polygons : List CPoly) :
    getTriangleCountOfSet polygons = (polygons.map Polygon.getTriangleCount).sum := by
  simpa using foldl_add_eq Polygon.getTriangleCount polygons 0

/-- Vertex offset of polygon `p` in the shared flat buffers: total vertex
count of the polygons before it. -/
def vOffset (polygons : List CPoly) (p : ℕ) : ℕ :=
  ((polygons.take p).map Polygon.getVertexCount).sum

theorem getPolygonOffsets_go (polygons : List CPoly) :
    ∀ (pre : List ℕ) (off : ℕ),
    (polygons.foldl
      (fun acc polygon =>
        (acc.1 ++ [acc.2 + Polygon.getVertexCount polygon],
         acc.2 + Polygon.getVertexCount polygon))
      (pre, off)).1 =
    pre ++ (List.range polygons.length).map
      (fun i => off + ((polygons.take (i + 1)).map Polygon.getVertexCount).sum) := by
  induction polygons with
  | nil => intro pre off; simp
  | cons c t ih =>
    intro pre off
    simp only [List.foldl_cons]
    rw [ih]
    rw [List.length_cons, List.range_succ_eq_map, List.map_cons, List.map_map,
      List.append_assoc]
    congr 1
    rw [List.singleton_append]
    congr 1
    apply List.map_congr_left
    intro a ha
    simp only [Function.comp, List.take_succ_cons, List.map_cons, List.sum_cons]
    omega

theorem getPolygonOffsets_eq (polygons : List CPoly) :
    getPolygonOffsets polygons =
      (List.range (polygons.length + 1)).map (vOffset polygons) := by
  unfold getPolygonOffsets
  rw [getPolygonOffsets_go polygons [0] 0]
  rw [List.range_succ_eq_map, List.map_cons, List.map_map, List.singleton_append]
  congr 1
  apply List.map_congr_left
  intro i _
  simp [Function.comp, vOffset]

theorem getD_range_map (f : ℕ → ℕ) (n i : ℕ) (h : i < n) :
    ((List.range n).map f).getD i 0 = f i := by
  simp [List.getD_eq_getElem?_getD, List.getElem?_map, List.getElem?_range h]

theorem getPolygonOffsets_getD (polygons : List CPoly) (i : ℕ)
    (h : i < polygons.length + 1) :
    (getPolygonOffsets polygons).getD i 0 = vOffset polygons i := by
  rw [getPolygonOffsets_eq]
  exact getD_range_map (vOffset polygons) (polygons.length + 1) i h

/-! ## Slot readers and more helpers -/

/-- Read the 2-entry slot of vertex `v` from a flat buffer with 2 entries per
vertex. -/
def slot2 (buf : List α) (d : α) (v : ℕ) : List α :=
  [buf.getD (2 * v) d, buf.getD (2 * v + 1) d]

/-- Read the 3-entry slot of vertex `v` from a flat buffer with 3 entries per
vertex. -/
def slot3 (buf : List α) (d : α) (v : ℕ) : List α :=
  [buf.getD (3 * v) d, buf.getD (3 * v + 1) d, buf.getD (3 * v + 2) d]

/-- Read the 4-entry slot of vertex `v` from a flat buffer with 4 entries per
vertex. -/
def slot4 (buf : List α) (d : α) (v : ℕ) : List α :=
  [buf.getD (4 * v) d, buf.getD (4 * v + 1) d,
   buf.getD (4 * v + 2) d, buf.getD (4 * v + 3) d]

theorem getD_replicate_of_lt (n : ℕ) (x : α) (k : ℕ) (d : α) (h : k < n) :
    (List.replicate n x).getD k d = x := by
  simp [List.getD_eq_getElem?_getD, List.getElem?_replicate, h]

theorem length_flatten_replicate (n : ℕ) (l : List α) :
    (List.replicate n l).flatten.length = n * l.length := by
  simp [List.length_flatten, List.map_replicate, List.sum_replicate, smul_eq_mul]

theorem getD_map_snd_enum (ps : List α) (f : α → β) :
    (ps.enum.map (fun ip => f ip.2)) = ps.map f := by
  have h : (fun ip : ℕ × α => f ip.2) = f ∘ Prod.snd := rfl
  rw [h, ← List.map_map, List.enum_map_snd]

theorem getD_enum (ps : List α) (p : ℕ) (d : ℕ × α) (da : α) (h : p < ps.length) :
    ps.enum.getD p d = (p, ps.getD p da) := by
  simp [List.getD_eq_getElem?_getD, List.getElem?_enum, List.getElem?_eq_getElem h]

theorem getD_map_of_lt (l : List α) (f : α → β) (p : ℕ) (d : β) (da : α)
    (h : p < l.length) :
    (l.map f).getD p d = f (l.getD p da) := by
  simp [List.getD_eq_getElem?_getD, List.getElem?_map, List.getElem?_eq_getElem h]

theorem vOffset_succ (ps : List CPoly) (i : ℕ) (h : i < ps.length) :
    vOffset ps (i + 1) = vOffset ps i + Polygon.getVertexCount (ps.getD i []) := by
  unfold vOffset
  rw [List.map_take, List.map_take, List.take_succ, List.sum_append]
  simp [List.getElem?_map, List.getElem?_eq_getElem h, List.getD_eq_getElem?_getD]

theorem vOffset_le_total (ps : List CPoly) (p q : ℕ) (hp : p < ps.length)
    (hq : q < Polygon.getVertexCount (ps.getD p [])) :
    vOffset ps p + q < getPointCount ps := by
  rw [getPointCount_eq]
  have hsplit : (ps.map Polygon.getVertexCount).sum =
      vOffset ps p + ((ps.map Polygon.getVertexCount).drop p).sum := by
    conv_lhs => rw [← List.take_append_drop p (ps.map Polygon.getVertexCount)]
    rw [List.sum_append]
    unfold vOffset
    rw [List.map_take]
  have hdrop : ((ps.map Polygon.getVertexCount).drop p).sum =
      Polygon.getVertexCount (ps.getD p []) +
        ((ps.map Polygon.getVertexCount).drop (p + 1)).sum := by
    rw [List.drop_eq_getElem_cons (by simpa using hp), List.sum_cons]
    congr 1
    simp [List.getElem_map, List.getD_eq_getElem?_getD, List.getElem?_eq_getElem hp]
  omega

/-! ## Characterization of calculatePickingColors -/

/-- The per-vertex 3-byte chunks written by `calculatePickingColors` for the
indexed polygon list `ips`. -/
def pickingChunks (ips : List (ℕ × CPoly)) : List (List ℕ) :=
  (ips.map (fun ip =>
    List.replicate (Polygon.getVertexCount ip.2) (getPickingColor ip.1))).flatten

theorem pickingChunks_length (ips : List (ℕ × CPoly)) :
    (pickingChunks ips).length = (ips.map (fun ip => Polygon.getVertexCount ip.2)).sum := by
  induction ips with
  | nil => rfl
  | cons ip ips ih =>
    have hsplit : pickingChunks (ip :: ips) =
        List.replicate (Polygon.getVertexCount ip.2) (getPickingColor ip.1) ++
          pickingChunks ips := by
      simp [pickingChunks]
    rw [hsplit, List.length_append, List.length_replicate, ih, List.map_cons,
      List.sum_cons]

theorem pickingChunks_flatten_length (ips : List (ℕ × CPoly)) :
    (pickingChunks ips).flatten.length =
      (ips.map (fun ip => Polygon.getVertexCount ip.2)).sum * 3 := by
  induction ips with
  | nil => rfl
  | cons ip ips ih =>
    simp only [pickingChunks, List.map_cons, List.flatten_cons, List.flatten_append,
      List.length_append, length_flatten_replicate] at *
    rw [ih]
    simp [getPickingColor]
    ring

theorem pickingChunks_all3 (ips : List (ℕ × CPoly)) :
    ∀ c ∈ pickingChunks ips, c.length = 3 := by
  intro c hc
  simp only [pickingChunks, List.mem_flatten, List.mem_map] at hc
  obtain ⟨l, ⟨ip, _, rfl⟩, hcl⟩ := hc
  rw [List.eq_of_mem_replicate hcl]
  rfl

theorem pickingFold_char (ips : List (ℕ × CPoly)) : ∀ (pre rest : List ℕ),
    (pickingChunks ips).flatten.length ≤ rest.length →
    ips.foldl
      (fun acc ip =>
        (writeAt acc.1 acc.2
          (List.replicate (Polygon.getVertexCount ip.2) (getPickingColor ip.1)).flatten,
         acc.2 + (getPickingColor ip.1).length * Polygon.getVertexCount ip.2))
      (pre ++ rest, pre.length) =
    (pre ++ (pickingChunks ips).flatten ++ rest.drop (pickingChunks ips).flatten.length,
     pre.length + (pickingChunks ips).flatten.length) := by
  induction ips with
  | nil => intro pre rest _; simp [pickingChunks]
  | cons ip ips ih =>
    intro pre rest hlen
    have hflat : (pickingChunks (ip :: ips)).flatten =
        (List.replicate (Polygon.getVertexCount ip.2) (getPickingColor ip.1)).flatten ++
          (pickingChunks ips).flatten := by
      simp [pickingChunks]
    set c := (List.replicate (Polygon.getVertexCount ip.2) (getPickingColor ip.1)).flatten with hc
    have hclen : c.length = Polygon.getVertexCount ip.2 * 3 := by
      rw [hc, length_flatten_replicate]; rfl
    have hlen' : c.length + (pickingChunks ips).flatten.length ≤ rest.length := by
      rw [hflat] at hlen; simpa using hlen
    simp only [List.foldl_cons]
    rw [writeAt_spec c pre rest (by omega)]
    have hcursor : pre.length + (getPickingColor ip.1).length * Polygon.getVertexCount ip.2 =
        (pre ++ c).length := by
      simp [hclen, getPickingColor]
      ring
    rw [hcursor]
    rw [ih (pre ++ c) (rest.drop c.length) (by simp only [List.length_drop]; omega)]
    rw [hflat]
    simp only [List.append_assoc, List.drop_drop, List.length_append, Prod.mk.injEq,
      Nat.add_assoc]

theorem calculatePickingColors_eq (ps : List CPoly) :
    calculatePickingColors ps (getPointCount ps) = (pickingChunks ps.enum).flatten := by
  unfold calculatePickingColors
  have hlen : (pickingChunks ps.enum).flatten.length = getPointCount ps * 3 := by
    rw [pickingChunks_flatten_length, getD_map_snd_enum, getPointCount_eq]
  have h0 : (List.replicate (getPointCount ps * 3) (0 : ℕ), 0) =
      (([] : List ℕ) ++ List.replicate (getPointCount ps * 3) 0, ([] : List ℕ).length) := by
    simp
  rw [h0, pickingFold_char ps.enum [] (List.replicate (getPointCount ps * 3) 0)
    (by simp [hlen])]
  simp [hlen]

/-- Reading one picking-color byte: entry `cix` of the vertex slot
`vOffset ps p + q` is entry `cix` of `getPickingColor p`. -/
theorem calculatePickingColors_getD (ps : List CPoly) (p q cix : ℕ)
    (hp : p < ps.length) (hq : q < Polygon.getVertexCount (ps.getD p []))
    (hcix : cix < 3) :
    (calculatePickingColors ps (getPointCount ps)).getD (3 * (vOffset ps p + q) + cix) 0 =
      (getPickingColor p).getD cix 0 := by
  rw [calculatePickingColors_eq]
  rw [getD_flatten_chunks (pickingChunks ps.enum) 3 (vOffset ps p + q) cix 0
    (pickingChunks_all3 ps.enum)
    (by rw [pickingChunks_length, getD_map_snd_enum, ← getPointCount_eq]
        exact vOffset_le_total ps p q hp hq)
    hcix]
  set groups := ps.enum.map (fun ip =>
    List.replicate (Polygon.getVertexCount ip.2) (getPickingColor ip.1)) with hgroups
  have hlens : groups.map List.length =
      ps.map Polygon.getVertexCount := by
    rw [hgroups, List.map_map]
    have hfun : (List.length ∘ fun ip : ℕ × CPoly =>
        List.replicate (Polygon.getVertexCount ip.2) (getPickingColor ip.1)) =
        (fun ip : ℕ × CPoly => Polygon.getVertexCount ip.2) := by
      funext ip; simp
    rw [hfun, getD_map_snd_enum]
  have hpre : prefLen groups p = vOffset ps p := by
    unfold prefLen vOffset
    rw [List.map_take, hlens, ← List.map_take]
  have hgp : groups.getD p [] =
      List.replicate (Polygon.getVertexCount (ps.getD p [])) (getPickingColor p) := by
    rw [hgroups, getD_map_of_lt ps.enum _ p [] (0, []) (by simpa [List.enum_length] using hp),
      getD_enum ps p (0, []) [] hp]
  have hplen : p < groups.length := by
    rw [hgroups]; simpa [List.enum_length] using hp
  have hq' : q < (groups.getD p []).length := by
    rw [hgp, List.length_replicate]; exact hq
  rw [show pickingChunks ps.enum = groups.flatten from rfl] at *
  rw [← hpre, getD_flatten_group groups p q [] hplen hq', hgp,
    getD_replicate_of_lt _ _ _ _ hq]

/-! ## Constructor lemmas and concrete sample data -/

theorem map_normalize (ps : List CPoly) : ps.map Polygon.normalize = ps := by
  rw [show Polygon.normalize = id from rfl, List.map_id]

theorem construct_polygons (ps : List CPoly) :
    (PolygonTesselator.construct ps).polygons = ps := by
  simp [PolygonTesselator.construct, map_normalize]

theorem construct_pointCount (ps : List CPoly) :
    (PolygonTesselator.construct ps).pointCount = getPointCount ps := by
  simp [PolygonTesselator.construct, map_normalize]

theorem construct_pickingColors (ps : List CPoly) :
    (PolygonTesselator.construct ps).attributes.pickingColors =
      calculatePickingColors ps (getPointCount ps) := by
  simp [PolygonTesselator.construct, map_normalize]

/-- A concrete triangle ring (three 2-ordinate points). -/
def triRing : PRing := [[0, 0], [1, 0], [0, 1]]

/-- A concrete simple polygon: one triangle ring. -/
def triPoly : CPoly := [triRing]

/-- A concrete square-with-square-hole polygon (two rings, 8 vertices). -/
def holedPoly : CPoly :=
  [[[0, 0], [4, 0], [4, 4], [0, 4]], [[1, 1], [2, 1], [2, 2], [1, 2]]]

/-- A concrete two-polygon set used by the witnesses. -/
def demoSet : List CPoly := [triPoly, holedPoly]

/-- General slot characterization of the picking-color buffer: every vertex
slot of polygon `p` holds `getPickingColor p`. -/
theorem pickingColors_slot (ps : List CPoly) (p q : ℕ)
    (hp : p < ps.length) (hq : q < Polygon.getVertexCount (ps.getD p [])) :
    slot3 (PolygonTesselator.construct ps).pickingColorsAttr 0 (vOffset ps p + q) =
      getPickingColor p := by
  have e0 := calculatePickingColors_getD ps p q 0 hp hq (by omega)
  have e1 := calculatePickingColors_getD ps p q 1 hp hq (by omega)
  have e2 := calculatePickingColors_getD ps p q 2 hp hq (by omega)
  rw [Nat.add_zero] at e0
  unfold slot3
  rw [PolygonTesselator.pickingColorsAttr, construct_pickingColors, e0, e1, e2]
  simp [getPickingColor]

/-! ## Claim C5 -/

/-- C5: for every PolygonSet of `n` polygons, the offsets table
`getPolygonOffsets` has `n + 1` entries, starts at `0`, each difference
`offsets[i+1] - offsets[i]` is the vertex count of polygon `i`, the table is
non-decreasing, and the final entry equals the total vertex count, which is
the sum of the per-polygon vertex counts. -/
theorem C5_offsets_invariants (ps : List CPoly) (i : ℕ) (hi : i < ps.length) :
    (getPolygonOffsets ps).length = ps.length + 1 ∧
    (getPolygonOffsets ps).getD 0 0 = 0 ∧
    (getPolygonOffsets ps).getD (i + 1) 0 - (getPolygonOffsets ps).getD i 0 =
      Polygon.getVertexCount (ps.getD i []) ∧
    (getPolygonOffsets ps).getD i 0 ≤ (getPolygonOffsets ps).getD (i + 1) 0 ∧
    (getPolygonOffsets ps).getD ps.length 0 = getPointCount ps ∧
    getPointCount ps = (ps.map Polygon.getVertexCount).sum := by
  have hlen : (getPolygonOffsets ps).length = ps.length + 1 := by
    rw [getPolygonOffsets_eq]; simp
  have h0 : (getPolygonOffsets ps).getD 0 0 = 0 := by
    rw [getPolygonOffsets_getD ps 0 (by omega)]; rfl
  have hi1 := getPolygonOffsets_getD ps (i + 1) (by omega)
  have hi0 := getPolygonOffsets_getD ps i (by omega)
  have hsucc := vOffset_succ ps i hi
  refine ⟨hlen, h0, ?_, ?_, ?_, getPointCount_eq ps⟩
  · rw [hi1, hi0, hsucc]; omega
  · rw [hi1, hi0, hsucc]; omega
  · rw [getPolygonOffsets_getD ps ps.length (by omega)]
    unfold vOffset
    rw [List.take_length, getPointCount_eq]

/-- Witness for C5: the invariants instantiated at the concrete two-polygon
`demoSet` and `i = 0`. -/
theorem C5_offsets_invariants_witness :
    0 < demoSet.length ∧
    ((getPolygonOffsets demoSet).length = demoSet.length + 1 ∧
     (getPolygonOffsets demoSet).getD 0 0 = 0 ∧
     (getPolygonOffsets demoSet).getD (0 + 1) 0 - (getPolygonOffsets demoSet).getD 0 0 =
       Polygon.getVertexCount (demoSet.getD 0 []) ∧
     (getPolygonOffsets demoSet).getD 0 0 ≤ (getPolygonOffsets demoSet).getD (0 + 1) 0 ∧
     (getPolygonOffsets demoSet).getD demoSet.length 0 = getPointCount demoSet ∧
     getPointCount demoSet = (demoSet.map Polygon.getVertexCount).sum) :=
  ⟨by decide, C5_offsets_invariants demoSet 0 (by decide)⟩

/-! ## Claim C2 -/

/-- C2 (amended): for every PolygonSet and polygon index `p` with
`p + 1 < 2^24`, every vertex slot of polygon `p` in the picking-color buffer
holds the triple `((p+1) % 256, (p+1)/256 % 256, (p+1)/65536 % 256)`,
decoding `r + g*256 + b*65536 - 1` recovers `p`, and the triple is never
`(0,0,0)`.  (The bound is forced: at `p = 2^24 - 1` the code produces
`(0,0,0)`, see the counterexample.) -/
theorem C2_pickingColor_roundTrip (ps : List CPoly) (p q : ℕ)
    (hp : p < ps.length) (hq : q < Polygon.getVertexCount (ps.getD p []))
    (hbound : p + 1 < 16777216) :
    slot3 (PolygonTesselator.construct ps).pickingColorsAttr 0 (vOffset ps p + q) =
      [(p + 1) % 256, (p + 1) / 256 % 256, (p + 1) / 65536 % 256] ∧
    decodePickingColor ((p + 1) % 256) ((p + 1) / 256 % 256) ((p + 1) / 65536 % 256) =
      (p : ℤ) ∧
    slot3 (PolygonTesselator.construct ps).pickingColorsAttr 0 (vOffset ps p + q) ≠
      [0, 0, 0] := by
  have hslot := pickingColors_slot ps p q hp hq
  have hdiv : (p + 1) / 256 / 256 = (p + 1) / 65536 := by
    rw [Nat.div_div_eq_div_mul]
  refine ⟨?_, ?_, ?_⟩
  · rw [hslot, getPickingColor, hdiv]
  · unfold decodePickingColor
    omega
  · rw [hslot, getPickingColor, hdiv]
    intro hcontra
    simp only [List.cons.injEq, and_true] at hcontra
    omega

/-- Witness for C2 at the concrete `demoSet`, polygon 1, vertex 5. -/
theorem C2_pickingColor_roundTrip_witness :
    (1 < demoSet.length ∧ 5 < Polygon.getVertexCount (demoSet.getD 1 []) ∧
     1 + 1 < 16777216) ∧
    (slot3 (PolygonTesselator.construct demoSet).pickingColorsAttr 0 (vOffset demoSet 1 + 5) =
       [(1 + 1) % 256, (1 + 1) / 256 % 256, (1 + 1) / 65536 % 256] ∧
     decodePickingColor ((1 + 1) % 256) ((1 + 1) / 256 % 256) ((1 + 1) / 65536 % 256) =
       ((1 : ℕ) : ℤ) ∧
     slot3 (PolygonTesselator.construct demoSet).pickingColorsAttr 0 (vOffset demoSet 1 + 5) ≠
       [0, 0, 0]) :=
  ⟨⟨by decide, by decide, by decide⟩,
   C2_pickingColor_roundTrip demoSet 1 5 (by decide) (by decide) (by decide)⟩

/-- C2 counterexample: in a set of 2^24 triangles, polygon index
`16777215 = 2^24 - 1` is a valid index, yet its vertex slot in the
picking-color buffer holds the reserved triple `(0,0,0)` — so the claim's
"`(0,0,0)` is never produced for any valid polygon index" is false as
stated. -/
theorem C2_counterexample :
    16777215 < (List.replicate 16777216 triPoly).length ∧
    slot3 (PolygonTesselator.construct (List.replicate 16777216 triPoly)).pickingColorsAttr 0
      (vOffset (List.replicate 16777216 triPoly) 16777215 + 0) = [0, 0, 0] := by
  have hlen : (List.replicate 16777216 triPoly).length = 16777216 :=
    List.length_replicate 16777216 triPoly
  have hp : 16777215 < (List.replicate 16777216 triPoly).length := by
    rw [hlen]; norm_num
  have hgetD : (List.replicate 16777216 triPoly).getD 16777215 [] = triPoly := by
    exact getD_replicate_of_lt 16777216 triPoly 16777215 [] (by norm_num)
  have hq : 0 < Polygon.getVertexCount ((List.replicate 16777216 triPoly).getD 16777215 []) := by
    rw [hgetD]; decide
  refine ⟨hp, ?_⟩
  rw [pickingColors_slot (List.replicate 16777216 triPoly) 16777215 0 hp hq]
  decide

/-! ## parseColor lemmas and the color pass -/

theorem parseColor_length (c : List Channel) (h : c.length ≤ 4) :
    (parseColor c).length = 4 := by
  unfold parseColor
  match h3 : c.get? 3 with
  | some (some v) =>
    have h3' : 3 < c.length := by
      rcases List.get?_eq_some.mp h3 with ⟨hlt, _⟩
      exact hlt
    rw [List.length_set]; omega
  | some none =>
    have h3' : 3 < c.length := by
      rcases List.get?_eq_some.mp h3 with ⟨hlt, _⟩
      exact hlt
    rw [List.length_set]; omega
  | none =>
    have h3' : c.length ≤ 3 := List.get?_eq_none.mp h3
    simp only [List.length_append, List.length_replicate, List.length_cons,
      List.length_nil]
    omega

theorem parseColor_of_len3 (c : List Channel) (h : c.length = 3) :
    parseColor c = c ++ [some 255] := by
  unfold parseColor
  have h3 : c.get? 3 = none := List.get?_eq_none.mpr (by omega)
  rw [h3]
  rw [h]
  simp

/-- C10: when the accessor's array has a missing (index past the end) or
non-finite entry at index 3, `parseColor` writes `255` there: after the call
the array's value differs from the value the accessor returned, and entry 3
is the finite value 255. -/
theorem C10_parseColor_mutation (c : List Channel)
    (h : c.get? 3 = none ∨ c.get? 3 = some none) :
    parseColor c ≠ c ∧ (parseColor c).get? 3 = some (some 255) := by
  rcases h with h | h
  · have hlen : c.length ≤ 3 := List.get?_eq_none.mp h
    have hplen : (parseColor c).length = 4 := parseColor_length c (by omega)
    constructor
    · intro heq
      rw [heq] at hplen
      omega
    · unfold parseColor
      rw [h]
      have hlen3 : (c ++ List.replicate (3 - c.length) none).length = 3 := by
        rw [List.length_append, List.length_replicate]
        omega
      rw [List.get?_eq_getElem?]
      rw [List.getElem?_append_right (le_of_eq hlen3)]
      rw [hlen3]
      rfl
  · have hlt : 3 < c.length := by
      rcases List.get?_eq_some.mp h with ⟨hlt, _⟩
      exact hlt
    have hset : parseColor c = c.set 3 (some 255) := by
      unfold parseColor
      rw [h]
    have hget : (parseColor c).get? 3 = some (some 255) := by
      rw [hset, List.get?_eq_getElem?, List.getElem?_set_self hlt]
    refine ⟨?_, hget⟩
    intro heq
    rw [heq] at hget
    rw [hget] at h
    exact Option.noConfusion (Option.some.injEq _ _ ▸ h)

/-- The per-vertex 4-byte chunks written by `updateColors` for the indexed
polygon list `ips`. -/
def colorChunks (getColor : ℕ → List Channel) (ips : List (ℕ × CPoly)) : List (List ℕ) :=
  (ips.map (fun ip =>
    List.replicate (Polygon.getVertexCount ip.2)
      ((parseColor (getColor ip.1)).map clampByte))).flatten

theorem colorChunks_length (getColor : ℕ → List Channel) (ips : List (ℕ × CPoly)) :
    (colorChunks getColor ips).length =
      (ips.map (fun ip => Polygon.getVertexCount ip.2)).sum := by
  induction ips with
  | nil => rfl
  | cons ip ips ih =>
    have hsplit : colorChunks getColor (ip :: ips) =
        List.replicate (Polygon.getVertexCount ip.2)
          ((parseColor (getColor ip.1)).map clampByte) ++ colorChunks getColor ips := by
      simp [colorChunks]
    rw [hsplit, List.length_append, List.length_replicate, ih, List.map_cons,
      List.sum_cons]

theorem colorChunks_all4 (getColor : ℕ → List Channel)
    (h4 : ∀ k, (getColor k).length ≤ 4) (ips : List (ℕ × CPoly)) :
    ∀ c ∈ colorChunks getColor ips, c.length = 4 := by
  intro c hc
  simp only [colorChunks, List.mem_flatten, List.mem_map] at hc
  obtain ⟨l, ⟨ip, _, rfl⟩, hcl⟩ := hc
  rw [List.eq_of_mem_replicate hcl, List.length_map]
  exact parseColor_length (getColor ip.1) (h4 ip.1)

theorem colorChunks_flatten_length (getColor : ℕ → List Channel)
    (h4 : ∀ k, (getColor k).length ≤ 4) (ips : List (ℕ × CPoly)) :
    (colorChunks getColor ips).flatten.length =
      (ips.map (fun ip => Polygon.getVertexCount ip.2)).sum * 4 := by
  induction ips with
  | nil => rfl
  | cons ip ips ih =>
    have hsplit : colorChunks getColor (ip :: ips) =
        List.replicate (Polygon.getVertexCount ip.2)
          ((parseColor (getColor ip.1)).map clampByte) ++ colorChunks getColor ips := by
      simp [colorChunks]
    rw [hsplit, List.flatten_append, List.length_append, length_flatten_replicate, ih,
      List.length_map, parseColor_length (getColor ip.1) (h4 ip.1), List.map_cons,
      List.sum_cons]
    ring

/-- The loop body of `updateColors`, named for the proofs; `updateColors`
is definitionally this step folded over the enumerated polygon list. -/
def colorStep (getColor : ℕ → List Channel) (s : ColorState) (ip : ℕ × CPoly) : ColorState :=
  let color := parseColor (getColor ip.1)
  let vertexCount := Polygon.getVertexCount ip.2
  { colors := writeAt s.colors s.i
      (List.replicate vertexCount (color.map clampByte)).flatten,
    i := s.i + color.length * vertexCount,
    log := s.log ++ [ip.1] }

theorem updateColors_eq_foldl (polygons : List CPoly) (getColor : ℕ → List Channel)
    (colors0 : List ℕ) :
    updateColors polygons getColor colors0 =
      polygons.enum.foldl (colorStep getColor)
        { colors := colors0, i := 0, log := [] } := rfl

theorem updateColorsFold_log (getColor : ℕ → List Channel) (ips : List (ℕ × CPoly)) :
    ∀ (s0 : ColorState),
    (ips.foldl (colorStep getColor) s0).log = s0.log ++ ips.map Prod.fst := by
  induction ips with
  | nil => intro s0; simp
  | cons ip ips ih =>
    intro s0
    rw [List.foldl_cons, ih]
    simp [colorStep]

theorem updateColorsFold_char (getColor : ℕ → List Channel)
    (h4 : ∀ k, (getColor k).length ≤ 4) (ips : List (ℕ × CPoly)) :
    ∀ (pre rest log0 : List ℕ),
    (colorChunks getColor ips).flatten.length ≤ rest.length →
    (ips.foldl (colorStep getColor)
      { colors := pre ++ rest, i := pre.length, log := log0 }).colors =
    pre ++ (colorChunks getColor ips).flatten ++
      rest.drop (colorChunks getColor ips).flatten.length ∧
    (ips.foldl (colorStep getColor)
      { colors := pre ++ rest, i := pre.length, log := log0 }).i =
    pre.length + (colorChunks getColor ips).flatten.length := by
  induction ips with
  | nil => intro pre rest log0 _; constructor <;> simp [colorChunks]
  | cons ip ips ih =>
    intro pre rest log0 hlen
    have hflat : (colorChunks getColor (ip :: ips)).flatten =
        (List.replicate (Polygon.getVertexCount ip.2)
          ((parseColor (getColor ip.1)).map clampByte)).flatten ++
          (colorChunks getColor ips).flatten := by
      simp [colorChunks]
    set c := (List.replicate (Polygon.getVertexCount ip.2)
      ((parseColor (getColor ip.1)).map clampByte)).flatten with hc
    have hclen : c.length = Polygon.getVertexCount ip.2 * 4 := by
      rw [hc, length_flatten_replicate, List.length_map,
        parseColor_length (getColor ip.1) (h4 ip.1)]
    have hlen2 : c.length + (colorChunks getColor ips).flatten.length ≤ rest.length := by
      rw [hflat] at hlen; simpa using hlen
    have hstep : colorStep getColor { colors := pre ++ rest, i := pre.length, log := log0 } ip =
        { colors := (pre ++ c) ++ rest.drop c.length,
          i := (pre ++ c).length, log := log0 ++ [ip.1] } := by
      simp only [colorStep]
      rw [← hc, writeAt_spec c pre rest (by omega)]
      simp only [List.append_assoc, List.length_append, hclen,
        parseColor_length (getColor ip.1) (h4 ip.1), ColorState.mk.injEq,
        and_true, true_and]
      ring
    rw [List.foldl_cons, hstep]
    have hres := ih (pre ++ c) (rest.drop c.length) (log0 ++ [ip.1])
      (by simp only [List.length_drop]; omega)
    refine ⟨?_, ?_⟩
    · rw [hres.1, hflat]
      simp only [List.append_assoc, List.drop_drop, List.length_append]
    · rw [hres.2, hflat]
      simp only [List.length_append]
      omega

theorem construct_colorsNone (ps : List CPoly) :
    (PolygonTesselator.construct ps).attributes.colors = none := rfl

theorem construct_positionsNone (ps : List CPoly) :
    (PolygonTesselator.construct ps).attributes.positions = none := rfl

theorem construct_nextPositionsNone (ps : List CPoly) :
    (PolygonTesselator.construct ps).attributes.nextPositions = none := rfl

theorem construct_lowNone (ps : List CPoly) :
    (PolygonTesselator.construct ps).attributes.positions64xyLow = none := rfl

theorem construct_nextLowNone (ps : List CPoly) :
    (PolygonTesselator.construct ps).attributes.nextPositions64xyLow = none := rfl

theorem list_eq_of_length_four (l : List α) (d : α) (h : l.length = 4) :
    [l.getD 0 d, l.getD 1 d, l.getD 2 d, l.getD 3 d] = l := by
  rcases l with _ | ⟨a, l⟩
  · simp at h
  rcases l with _ | ⟨b, l⟩
  · simp at h
  rcases l with _ | ⟨c, l⟩
  · simp at h
  rcases l with _ | ⟨e, l⟩
  · simp at h
  rcases l with _ | ⟨f, l⟩
  · rfl
  · simp at h

/-- The color accessor is invoked exactly once per polygon, in order. -/
theorem colors_log (ps : List CPoly) (getColor : ℕ → List Channel) :
    ((PolygonTesselator.construct ps).colors getColor).log = List.range ps.length := by
  unfold PolygonTesselator.colors
  rw [updateColors_eq_foldl, updateColorsFold_log, construct_polygons]
  simp [List.enum_map_fst]

/-- The colors buffer produced by the color pass, as flat per-vertex chunks. -/
theorem colors_buffer_eq (ps : List CPoly) (getColor : ℕ → List Channel)
    (h4 : ∀ k, (getColor k).length ≤ 4) :
    ((PolygonTesselator.construct ps).colors getColor).colors =
      (colorChunks getColor ps.enum).flatten := by
  unfold PolygonTesselator.colors
  rw [updateColors_eq_foldl, construct_polygons, construct_pointCount, construct_colorsNone]
  have hlen : (colorChunks getColor ps.enum).flatten.length = getPointCount ps * 4 := by
    rw [colorChunks_flatten_length getColor h4, getD_map_snd_enum, getPointCount_eq]
  have hres := updateColorsFold_char getColor h4 ps.enum []
    (List.replicate (getPointCount ps * 4) 0) []
    (by rw [hlen, List.length_replicate])
  have h2 : ([] : List ℕ) ++ (colorChunks getColor ps.enum).flatten ++
      (List.replicate (getPointCount ps * 4) (0 : ℕ)).drop
        (colorChunks getColor ps.enum).flatten.length =
      (colorChunks getColor ps.enum).flatten := by
    have hdl := List.drop_length (l := List.replicate (getPointCount ps * 4) (0 : ℕ))
    rw [List.length_replicate] at hdl
    rw [hlen, hdl]
    simp
  exact hres.1.trans h2

/-- General slot characterization of the color pass: every vertex slot of
polygon `p` holds the parsed, clamped accessor color. -/
theorem colors_slot (ps : List CPoly) (getColor : ℕ → List Channel)
    (h4 : ∀ k, (getColor k).length ≤ 4) (p q : ℕ)
    (hp : p < ps.length) (hq : q < Polygon.getVertexCount (ps.getD p [])) :
    slot4 ((PolygonTesselator.construct ps).colors getColor).colors 0 (vOffset ps p + q) =
      (parseColor (getColor p)).map clampByte := by
  have hall4 := colorChunks_all4 getColor h4 ps.enum
  have hcount : vOffset ps p + q < (colorChunks getColor ps.enum).length := by
    rw [colorChunks_length, getD_map_snd_enum, ← getPointCount_eq]
    exact vOffset_le_total ps p q hp hq
  have echunk : ∀ cix : ℕ, cix < 4 →
      ((PolygonTesselator.construct ps).colors getColor).colors.getD
        (4 * (vOffset ps p + q) + cix) 0 =
      ((colorChunks getColor ps.enum).getD (vOffset ps p + q) []).getD cix 0 := by
    intro cix hcix
    rw [colors_buffer_eq ps getColor h4]
    exact getD_flatten_chunks (colorChunks getColor ps.enum) 4 (vOffset ps p + q) cix 0
      hall4 hcount hcix
  set groups := ps.enum.map (fun ip =>
    List.replicate (Polygon.getVertexCount ip.2)
      ((parseColor (getColor ip.1)).map clampByte)) with hgroups
  have hlens : groups.map List.length = ps.map Polygon.getVertexCount := by
    rw [hgroups, List.map_map]
    have hfun : (List.length ∘ fun ip : ℕ × CPoly =>
        List.replicate (Polygon.getVertexCount ip.2)
          ((parseColor (getColor ip.1)).map clampByte)) =
        (fun ip : ℕ × CPoly => Polygon.getVertexCount ip.2) := by
      funext ip; simp
    rw [hfun, getD_map_snd_enum]
  have hpre : prefLen groups p = vOffset ps p := by
    unfold prefLen vOffset
    rw [List.map_take, hlens, ← List.map_take]
  have hgp : groups.getD p [] =
      List.replicate (Polygon.getVertexCount (ps.getD p []))
        ((parseColor (getColor p)).map clampByte) := by
    rw [hgroups, getD_map_of_lt ps.enum _ p [] (0, []) (by simpa [List.enum_length] using hp),
      getD_enum ps p (0, []) [] hp]
  have hplen : p < groups.length := by
    rw [hgroups]; simpa [List.enum_length] using hp
  have hq2 : q < (groups.getD p []).length := by
    rw [hgp, List.length_replicate]; exact hq
  have hchunkval : (colorChunks getColor ps.enum).getD (vOffset ps p + q) [] =
      (parseColor (getColor p)).map clampByte := by
    rw [show colorChunks getColor ps.enum = groups.flatten from rfl]
    rw [← hpre, getD_flatten_group groups p q [] hplen hq2, hgp,
      getD_replicate_of_lt _ _ _ _ hq]
  have e0 := echunk 0 (by omega)
  rw [Nat.add_zero] at e0
  unfold slot4
  rw [e0, echunk 1 (by omega), echunk 2 (by omega), echunk 3 (by omega), hchunkval]
  exact list_eq_of_length_four _ 0
    (by rw [List.length_map]; exact parseColor_length (getColor p) (h4 p))

/-! ## Claims C9 and C10 -/

/-- C9: in every color pass, the accessor is called exactly once per polygon
(the call log is `[0, ..., n-1]`); a 3-channel result is completed with alpha
255; the resulting 4-byte RGBA value (parsed and clamped by the
`Uint8ClampedArray` store) is broadcast over every vertex slot of the
polygon; and with no accessor supplied every vertex receives the default
opaque black `(0,0,0,255)`. -/
theorem C9_color_pass (ps : List CPoly) (getColor : ℕ → List Channel)
    (h34 : ∀ k, (getColor k).length = 3 ∨ (getColor k).length = 4)
    (p q : ℕ) (hp : p < ps.length) (hq : q < Polygon.getVertexCount (ps.getD p [])) :
    ((PolygonTesselator.construct ps).colors getColor).log = List.range ps.length ∧
    slot4 ((PolygonTesselator.construct ps).colors getColor).colors 0 (vOffset ps p + q) =
      (parseColor (getColor p)).map clampByte ∧
    ((getColor p).length = 3 → parseColor (getColor p) = getColor p ++ [some 255]) ∧
    slot4 (PolygonTesselator.colors (PolygonTesselator.construct ps)).colors 0
      (vOffset ps p + q) = [0, 0, 0, 255] := by
  have h4 : ∀ k, (getColor k).length ≤ 4 := by
    intro k; rcases h34 k with h | h <;> omega
  refine ⟨colors_log ps getColor, colors_slot ps getColor h4 p q hp hq, ?_, ?_⟩
  · intro h3
    exact parseColor_of_len3 (getColor p) h3
  · have hdef : ∀ k, ((fun _ : ℕ => DEFAULT_COLOR) k).length ≤ 4 := by
      intro k
      show DEFAULT_COLOR.length ≤ 4
      decide
    have hslot := colors_slot ps (fun _ => DEFAULT_COLOR) hdef p q hp hq
    rw [hslot]
    show (parseColor DEFAULT_COLOR).map clampByte = [0, 0, 0, 255]
    decide

/-- Witness for C9 at the concrete `demoSet`, a 3-channel accessor (with an
out-of-range red channel exercising the clamp), polygon 1, vertex 0. -/
theorem C9_color_pass_witness :
    ((∀ k, ((fun _ : ℕ => [some 300, some 20, some 10]) k : List Channel).length = 3 ∨
        ((fun _ : ℕ => [some 300, some 20, some 10]) k : List Channel).length = 4) ∧
      1 < demoSet.length ∧ 0 < Polygon.getVertexCount (demoSet.getD 1 [])) ∧
    (((PolygonTesselator.construct demoSet).colors
        (fun _ : ℕ => [some 300, some 20, some 10])).log = List.range demoSet.length ∧
     slot4 ((PolygonTesselator.construct demoSet).colors
        (fun _ : ℕ => [some 300, some 20, some 10])).colors 0 (vOffset demoSet 1 + 0) =
       (parseColor ((fun _ : ℕ => [some 300, some 20, some 10]) 1)).map clampByte ∧
     (((fun _ : ℕ => [some 300, some 20, some 10]) 1 : List Channel).length = 3 →
       parseColor ((fun _ : ℕ => [some 300, some 20, some 10]) 1) =
         (fun _ : ℕ => [some 300, some 20, some 10]) 1 ++ [some 255]) ∧
     slot4 (PolygonTesselator.colors (PolygonTesselator.construct demoSet)).colors 0
       (vOffset demoSet 1 + 0) = [0, 0, 0, 255]) :=
  ⟨⟨fun _ => Or.inl rfl, by decide, by decide⟩,
   C9_color_pass demoSet (fun _ => [some 300, some 20, some 10])
     (fun _ => Or.inl rfl) 1 0 (by decide) (by decide)⟩

/-- Witness for C10 at the concrete 3-channel array `[1, 2, 3]` (missing
alpha): the value after `parseColor` differs and carries alpha 255. -/
theorem C10_parseColor_mutation_witness :
    (([some 1, some 2, some 3] : List Channel).get? 3 = none ∨
     ([some 1, some 2, some 3] : List Channel).get? 3 = some none) ∧
    (parseColor [some 1, some 2, some 3] ≠ [some 1, some 2, some 3] ∧
     (parseColor [some 1, some 2, some 3]).get? 3 = some (some 255)) :=
  ⟨Or.inl (by decide),
   C10_parseColor_mutation [some 1, some 2, some 3] (Or.inl (by decide))⟩

/-! ## Claims C1 and C4 -/

theorem calculateIndicesFold_log (earcut : Earcut) (offsets : List ℕ)
    (ips : List (ℕ × CPoly)) :
    ∀ (b : (List ℕ × ℕ) × List ℕ),
    (ips.foldl (indexStep earcut offsets) b).2 = b.2 ++ ips.map Prod.fst := by
  induction ips with
  | nil => intro b; simp
  | cons ip ips ih =>
    intro b
    rw [List.foldl_cons, ih]
    simp [indexStep]

theorem calculateIndices_log (earcut : Earcut) (ps : List CPoly) :
    (calculateIndices earcut ps).2 = List.range ps.length := by
  unfold calculateIndices
  rw [if_neg (by simp)]
  rw [calculateIndicesFold_log]
  simp [List.enum_map_fst]

/-- C1 (code bug evaluation): a single-ring polygon with 30,000 vertices has
total vertex count 30,000 ≤ 65,535, so per the claim (and the code's own TODO
comment and error message) a 16-bit index request must succeed; yet the code
compares `3 * triangleCount = 89,994` against 65,535 and throws. -/
theorem C1_indexOverflow_code_bug :
    getPointCount [[List.replicate 30000 ([0, 0] : Point)]] = 30000 ∧
    getPointCount [[List.replicate 30000 ([0, 0] : Point)]] ≤ 65535 ∧
    (calculateIndices (fun _ _ _ => []) [[List.replicate 30000 ([0, 0] : Point)]]
        IndexKind.uint16).1 =
      Except.error "Vertex count exceeds browser limit" := by
  have hv : Polygon.getVertexCount [List.replicate 30000 ([0, 0] : Point)] = 30000 := by
    unfold Polygon.getVertexCount
    rw [List.map_cons, List.map_nil, List.length_replicate, List.sum_cons, List.sum_nil]
    omega
  have hpc : getPointCount [[List.replicate 30000 ([0, 0] : Point)]] = 30000 := by
    unfold getPointCount
    rw [List.foldl_cons, List.foldl_nil, hv]
  have ht : getTriangleCountOfSet [[List.replicate 30000 ([0, 0] : Point)]] = 29998 := by
    rw [getTriangleCountOfSet_eq, List.map_cons, List.map_nil, List.sum_cons, List.sum_nil]
    unfold Polygon.getTriangleCount
    rw [hv]
    norm_num
  refine ⟨hpc, by rw [hpc]; omega, ?_⟩
  unfold calculateIndices
  rw [if_pos ⟨rfl, by rw [ht]; norm_num⟩]

/-- C4 counterexample: calling `indices()` on a freshly constructed
one-polygon tesselator triangulates polygon 0 during the call (the
triangulation log is `[0]`, not empty) — so `indices()` is not a pure read of
an index buffer computed once at construction and cached. -/
theorem C4_counterexample :
    ((PolygonTesselator.construct [triPoly]).indices (fun _ _ _ => [])).2 = [0] ∧
    ((PolygonTesselator.construct [triPoly]).indices (fun _ _ _ => [])).2 ≠ [] := by
  constructor <;> decide

/-- C4 (amended): nothing index-related is cached at construction; every
`indices()` call recomputes `calculateIndices` from the stored polygon list,
triangulating each of the `n` polygons once per call (triangulation log
`[0, ..., n-1]`); since the stored polygons never change, repeated calls
return equal, freshly recomputed buffers. -/
theorem C4_indices_recompute (ps : List CPoly) (earcut : Earcut) :
    ((PolygonTesselator.construct ps).indices earcut).2 = List.range ps.length ∧
    (PolygonTesselator.construct ps).indices earcut = calculateIndices earcut ps := by
  have heq : (PolygonTesselator.construct ps).indices earcut = calculateIndices earcut ps := by
    unfold PolygonTesselator.indices
    rw [construct_polygons]
  refine ⟨?_, heq⟩
  rw [heq, calculateIndices_log]

/-! ## Claim C3: buffer allocation and accessors -/

/-- The four buffer lengths of an `UPState`; the update pass only overwrites
in place, so these are invariant. -/
def dims (s : UPState) : ℕ × ℕ × ℕ × ℕ :=
  (s.positions.length, s.positions64xyLow.length,
   s.nextPositions.length, s.nextPositions64xyLow.length)

theorem dims_popStartVertex (e b : Bool) (s : UPState) :
    dims (popStartVertex e b s) = dims s := by
  unfold popStartVertex
  cases hsv : s.startVertex with
  | none => rfl
  | some sv =>
    simp only [dims]
    split_ifs <;> simp [length_writeAt]

theorem dims_processVertex (e b : Bool) (fr : ℚ → ℚ) (h : ℚ) (s : UPState)
    (kv : ℕ × Point) :
    dims (processVertex e b fr h s kv) = dims s := by
  unfold processVertex
  simp only []
  split_ifs <;> cases hsv : s.startVertex <;>
    (try simp [dims, popStartVertex, length_writeAt]) <;>
    (try split_ifs) <;>
    (try simp [dims, length_writeAt])

theorem dims_foldl {χ : Type} (f : UPState → χ → UPState)
    (hf : ∀ s x, dims (f s x) = dims s) (l : List χ) :
    ∀ (s : UPState), dims (l.foldl f s) = dims s := by
  induction l with
  | nil => intro s; rfl
  | cons x l ih => intro s; rw [List.foldl_cons, ih, hf]

theorem dims_processRing (e b : Bool) (fr : ℚ → ℚ) (h : ℚ) (s : UPState)
    (ring : PRing) :
    dims (processRing e b fr h s ring) = dims s := by
  unfold processRing
  exact dims_foldl _ (dims_processVertex e b fr h) ring.enum s

theorem dims_runFold (e b : Bool) (fr : ℚ → ℚ) (gH : ℕ → ℚ)
    (ips : List (ℕ × CPoly)) :
    ∀ (sl : UPState × List ℕ),
    dims ((ips.foldl (processPolygon e b fr gH) sl).1) = dims sl.1 := by
  induction ips with
  | nil => intro sl; rfl
  | cons ip ips ih =>
    intro sl
    rw [List.foldl_cons, ih]
    unfold processPolygon
    exact dims_foldl _ (dims_processRing e b fr _) ip.2 sl.1

theorem dims_updatePositionsRun (ps : List CPoly) (gH : ℕ → ℚ) (e b : Bool)
    (fr : ℚ → ℚ) (s0 : UPState) :
    dims (updatePositionsRun ps gH e b fr s0).1 = dims s0 := by
  unfold updatePositionsRun
  rw [dims_popStartVertex, dims_runFold]

theorem colorStep_length (getColor : ℕ → List Channel) (s : ColorState)
    (ip : ℕ × CPoly) :
    (colorStep getColor s ip).colors.length = s.colors.length := by
  simp [colorStep, length_writeAt]

theorem updateColorsFold_length (getColor : ℕ → List Channel)
    (ips : List (ℕ × CPoly)) :
    ∀ (s : ColorState),
    (ips.foldl (colorStep getColor) s).colors.length = s.colors.length := by
  induction ips with
  | nil => intro s; rfl
  | cons ip ips ih =>
    intro s
    rw [List.foldl_cons, ih, colorStep_length]

theorem updatePositionsRun_lengths (ps : List CPoly) (gH : ℕ → ℚ) (e b : Bool)
    (fr : ℚ → ℚ) (P L N M : List ℚ) :
    (updatePositionsRun ps gH e b fr ⟨P, L, N, M, 0, 0, 0, 0, none⟩).1.positions.length =
      P.length ∧
    (updatePositionsRun ps gH e b fr ⟨P, L, N, M, 0, 0, 0, 0, none⟩).1.positions64xyLow.length =
      L.length ∧
    (updatePositionsRun ps gH e b fr ⟨P, L, N, M, 0, 0, 0, 0, none⟩).1.nextPositions.length =
      N.length ∧
    (updatePositionsRun ps gH e b fr ⟨P, L, N, M, 0, 0, 0, 0, none⟩).1.nextPositions64xyLow.length =
      M.length := by
  have hd := dims_updatePositionsRun ps gH e b fr ⟨P, L, N, M, 0, 0, 0, 0, none⟩
  simp only [dims, Prod.mk.injEq] at hd
  exact ⟨hd.1, hd.2.1, hd.2.2.1, hd.2.2.2⟩

/-- C3 counterexample: immediately after construction, before any
`updatePositions` or `colors` pass, all four position accessors and the
colors attribute return `undefined` (`none`) — not a zero-filled buffer. -/
theorem C3_counterexample :
    (PolygonTesselator.construct demoSet).positionsAttr = none ∧
    (PolygonTesselator.construct demoSet).nextPositionsAttr = none ∧
    (PolygonTesselator.construct demoSet).positions64xyLowAttr = none ∧
    (PolygonTesselator.construct demoSet).nextPositions64xyLowAttr = none ∧
    (PolygonTesselator.construct demoSet).attributes.colors = none :=
  ⟨rfl, rfl, rfl, rfl, rfl⟩

/-- C3 (amended): position accessors return `undefined` (`none`) after
construction until `updatePositions` first runs; the first `updatePositions`
call allocates the buffers zero-filled at the cached sizes and overwrites in
place, so afterwards `positions`/`nextPositions` are buffers of length
`3 * pointCount` (and under `fp64` the low buffers have length
`2 * pointCount`, while without `fp64` they stay `undefined`); `colors()`
performs its own pass and always returns a buffer of length
`4 * pointCount`. -/
theorem C3_accessors_before_after (ps : List CPoly) (e b : Bool) (gH : ℕ → ℚ)
    (fr : ℚ → ℚ) (getColor : ℕ → List Channel) :
    (PolygonTesselator.construct ps).positionsAttr = none ∧
    (PolygonTesselator.construct ps).nextPositionsAttr = none ∧
    (PolygonTesselator.construct ps).positions64xyLowAttr = none ∧
    (PolygonTesselator.construct ps).nextPositions64xyLowAttr = none ∧
    (((PolygonTesselator.construct ps).updatePositions e b gH fr).1.positionsAttr).map
      List.length = some (getPointCount ps * 3) ∧
    (((PolygonTesselator.construct ps).updatePositions e b gH fr).1.nextPositionsAttr).map
      List.length = some (getPointCount ps * 3) ∧
    (((PolygonTesselator.construct ps).updatePositions e true gH fr).1.positions64xyLowAttr).map
      List.length = some (getPointCount ps * 2) ∧
    (((PolygonTesselator.construct ps).updatePositions e true gH fr).1.nextPositions64xyLowAttr).map
      List.length = some (getPointCount ps * 2) ∧
    ((PolygonTesselator.construct ps).updatePositions e false gH fr).1.positions64xyLowAttr =
      none ∧
    ((PolygonTesselator.construct ps).updatePositions e false gH fr).1.nextPositions64xyLowAttr =
      none ∧
    ((PolygonTesselator.construct ps).colors getColor).colors.length =
      getPointCount ps * 4 := by
  have hcolors : ((PolygonTesselator.construct ps).colors getColor).colors.length =
      getPointCount ps * 4 := by
    unfold PolygonTesselator.colors
    rw [updateColors_eq_foldl, updateColorsFold_length, construct_pointCount,
      construct_colorsNone]
    simp [List.length_replicate]
  have hrunT := updatePositionsRun_lengths (PolygonTesselator.construct ps).polygons gH e true fr
    (List.replicate ((PolygonTesselator.construct ps).pointCount * 3) 0)
    (List.replicate ((PolygonTesselator.construct ps).pointCount * 2) 0)
    (List.replicate ((PolygonTesselator.construct ps).pointCount * 3) 0)
    (List.replicate ((PolygonTesselator.construct ps).pointCount * 2) 0)
  have hrunF := updatePositionsRun_lengths (PolygonTesselator.construct ps).polygons gH e false fr
    (List.replicate ((PolygonTesselator.construct ps).pointCount * 3) 0)
    ([] : List ℚ)
    (List.replicate ((PolygonTesselator.construct ps).pointCount * 3) 0)
    ([] : List ℚ)
  cases b with
  | true =>
    refine ⟨rfl, rfl, rfl, rfl, ?_, ?_, ?_, ?_, ?_, ?_, hcolors⟩
    · simp [PolygonTesselator.updatePositions, PolygonTesselator.positionsAttr,
        construct_positionsNone, construct_nextPositionsNone, construct_lowNone,
        construct_nextLowNone]
      rw [hrunT.1, List.length_replicate, construct_pointCount]
    · simp [PolygonTesselator.updatePositions, PolygonTesselator.nextPositionsAttr,
        construct_positionsNone, construct_nextPositionsNone, construct_lowNone,
        construct_nextLowNone]
      rw [hrunT.2.2.1, List.length_replicate, construct_pointCount]
    · simp [PolygonTesselator.updatePositions, PolygonTesselator.positions64xyLowAttr,
        construct_positionsNone, construct_nextPositionsNone, construct_lowNone,
        construct_nextLowNone]
      rw [hrunT.2.1, List.length_replicate, construct_pointCount]
    · simp [PolygonTesselator.updatePositions, PolygonTesselator.nextPositions64xyLowAttr,
        construct_positionsNone, construct_nextPositionsNone, construct_lowNone,
        construct_nextLowNone]
      rw [hrunT.2.2.2, List.length_replicate, construct_pointCount]
    · simp [PolygonTesselator.updatePositions, PolygonTesselator.positions64xyLowAttr,
        construct_lowNone]
    · simp [PolygonTesselator.updatePositions, PolygonTesselator.nextPositions64xyLowAttr,
        construct_nextLowNone]
  | false =>
    refine ⟨rfl, rfl, rfl, rfl, ?_, ?_, ?_, ?_, ?_, ?_, hcolors⟩
    · simp [PolygonTesselator.updatePositions, PolygonTesselator.positionsAttr,
        construct_positionsNone, construct_nextPositionsNone, construct_lowNone,
        construct_nextLowNone]
      rw [hrunF.1, List.length_replicate, construct_pointCount]
    · simp [PolygonTesselator.updatePositions, PolygonTesselator.nextPositionsAttr,
        construct_positionsNone, construct_nextPositionsNone, construct_lowNone,
        construct_nextLowNone]
      rw [hrunF.2.2.1, List.length_replicate, construct_pointCount]
    · simp [PolygonTesselator.updatePositions, PolygonTesselator.positions64xyLowAttr,
        construct_positionsNone, construct_nextPositionsNone, construct_lowNone,
        construct_nextLowNone]
      rw [hrunT.2.1, List.length_replicate, construct_pointCount]
    · simp [PolygonTesselator.updatePositions, PolygonTesselator.nextPositions64xyLowAttr,
        construct_positionsNone, construct_nextPositionsNone, construct_lowNone,
        construct_nextLowNone]
      rw [hrunT.2.2.2, List.length_replicate, construct_pointCount]
    · simp [PolygonTesselator.updatePositions, PolygonTesselator.positions64xyLowAttr,
        construct_lowNone]
    · simp [PolygonTesselator.updatePositions, PolygonTesselator.nextPositions64xyLowAttr,
        construct_nextLowNone]

/-! ## Characterization of updatePositions -/

/-- The 3 position entries one vertex contributes: `(x, y, z + height)` with
a missing `z` read as `0`. -/
def coords3 (h : ℚ) (v : Point) : List ℚ :=
  [jsGet v 0, jsGet v 1, jsGet v 2 + h]

/-- The 2 low-part entries one vertex contributes under `fp64`:
`(x - fround x, y - fround y)`. -/
def lows2 (fr : ℚ → ℚ) (v : Point) : List ℚ :=
  [jsGet v 0 - fr (jsGet v 0), jsGet v 1 - fr (jsGet v 1)]

/-- The start-vertex record captured at a ring's first vertex. -/
def svOf (fr : ℚ → ℚ) (h : ℚ) (v : Point) : StartVertex :=
  ⟨jsGet v 0, jsGet v 1, jsGet v 2 + h,
   jsGet v 0 - fr (jsGet v 0), jsGet v 1 - fr (jsGet v 1)⟩

/-- Coordinates flushed for a pending start vertex (`[]` when none pending). -/
def flushC : Option StartVertex → List ℚ
  | none => []
  | some sv => [sv.x, sv.y, sv.z]

/-- Low parts flushed for a pending start vertex. -/
def flushL : Option StartVertex → List ℚ
  | none => []
  | some sv => [sv.xLow, sv.yLow]

/-- Position entries of a vertex list, 3 per vertex. -/
def vertsCoords (h : ℚ) (vs : List Point) : List ℚ :=
  (vs.map (coords3 h)).flatten

/-- Low-part entries of a vertex list, 2 per vertex. -/
def vertsLows (fr : ℚ → ℚ) (vs : List Point) : List ℚ :=
  (vs.map (lows2 fr)).flatten

theorem vertsCoords_length (h : ℚ) (vs : List Point) :
    (vertsCoords h vs).length = 3 * vs.length := by
  induction vs with
  | nil => rfl
  | cons v vs ih =>
    simp only [vertsCoords, List.map_cons, List.flatten_cons, List.length_append] at *
    rw [ih]
    simp [coords3]
    ring

theorem vertsLows_length (fr : ℚ → ℚ) (vs : List Point) :
    (vertsLows fr vs).length = 2 * vs.length := by
  induction vs with
  | nil => rfl
  | cons v vs ih =>
    simp only [vertsLows, List.map_cons, List.flatten_cons, List.length_append] at *
    rw [ih]
    simp [lows2]
    ring

theorem vertsCoords_cons (h : ℚ) (v : Point) (vs : List Point) :
    vertsCoords h (v :: vs) = coords3 h v ++ vertsCoords h vs := by
  simp [vertsCoords]

theorem vertsLows_cons (fr : ℚ → ℚ) (v : Point) (vs : List Point) :
    vertsLows fr (v :: vs) = lows2 fr v ++ vertsLows fr vs := by
  simp [vertsLows]

/-- One `processVertex` step at a vertex index `≥ 1` (no ring start):
positions and (under the flags) low/next buffers each receive this vertex's
entries at their cursors; the pending start vertex is unchanged. -/
theorem processVertex_tail (e b : Bool) (fr : ℚ → ℚ) (h : ℚ) (n0 : ℕ) (v : Point)
    (AP AL AN AM RP RL RN RM : List ℚ) (sv : Option StartVertex)
    (hn0 : 1 ≤ n0)
    (hRP : 3 ≤ RP.length)
    (hRL : b = true → 2 ≤ RL.length)
    (hRN : e = true → 3 ≤ RN.length)
    (hRM : e = true → b = true → 2 ≤ RM.length) :
    processVertex e b fr h
      ⟨AP ++ RP, AL ++ RL, AN ++ RN, AM ++ RM,
       AP.length, AL.length, AN.length, AM.length, sv⟩ (n0, v) =
    ⟨AP ++ coords3 h v ++ RP.drop 3,
     AL ++ (if b = true then lows2 fr v else []) ++ RL.drop (if b = true then 2 else 0),
     AN ++ (if e = true then coords3 h v else []) ++ RN.drop (if e = true then 3 else 0),
     AM ++ (if e = true ∧ b = true then lows2 fr v else []) ++
       RM.drop (if e = true ∧ b = true then 2 else 0),
     AP.length + 3,
     AL.length + (if b = true then 2 else 0),
     AN.length + (if e = true then 3 else 0),
     AM.length + (if e = true ∧ b = true then 2 else 0),
     sv⟩ := by
  have hne0 : ¬ n0 = 0 := by omega
  have hpos : 0 < n0 := hn0
  cases e <;> cases b <;>
    simp_all [processVertex, writeAt_spec, coords3, lows2]

/-- One `processVertex` step at a ring's first vertex (index 0): positions
and low entries are written as usual; no next entry for this vertex, but the
previous ring's pending start vertex is flushed into the next buffers (under
the flags), and this vertex becomes the new pending start vertex. -/
theorem processVertex_head (e b : Bool) (fr : ℚ → ℚ) (h : ℚ) (v : Point)
    (AP AL AN AM RP RL RN RM : List ℚ) (sv : Option StartVertex)
    (hRP : 3 ≤ RP.length)
    (hRL : b = true → 2 ≤ RL.length)
    (hRN : e = true → (flushC sv).length ≤ RN.length)
    (hRM : e = true → b = true → (flushL sv).length ≤ RM.length) :
    processVertex e b fr h
      ⟨AP ++ RP, AL ++ RL, AN ++ RN, AM ++ RM,
       AP.length, AL.length, AN.length, AM.length, sv⟩ (0, v) =
    ⟨AP ++ coords3 h v ++ RP.drop 3,
     AL ++ (if b = true then lows2 fr v else []) ++ RL.drop (if b = true then 2 else 0),
     AN ++ (if e = true then flushC sv else []) ++
       RN.drop (if e = true then (flushC sv).length else 0),
     AM ++ (if e = true ∧ b = true then flushL sv else []) ++
       RM.drop (if e = true ∧ b = true then (flushL sv).length else 0),
     AP.length + 3,
     AL.length + (if b = true then 2 else 0),
     AN.length + (if e = true then (flushC sv).length else 0),
     AM.length + (if e = true ∧ b = true then (flushL sv).length else 0),
     some (svOf fr h v)⟩ := by
  cases sv <;> cases e <;> cases b <;>
    simp_all [processVertex, popStartVertex, writeAt_spec, coords3, lows2, svOf,
      flushC, flushL]

/-- Folding `processVertex` over the tail of a ring (vertex indices all
`≥ 1`): every vertex appends its entries at the cursors; the pending start
vertex is untouched. -/
theorem foldTail_char (e b : Bool) (fr : ℚ → ℚ) (h : ℚ) (vs : List Point) :
    ∀ (n0 : ℕ) (AP AL AN AM RP RL RN RM : List ℚ) (sv : Option StartVertex),
    1 ≤ n0 →
    3 * vs.length ≤ RP.length →
    (b = true → 2 * vs.length ≤ RL.length) →
    (e = true → 3 * vs.length ≤ RN.length) →
    (e = true → b = true → 2 * vs.length ≤ RM.length) →
    (List.enumFrom n0 vs).foldl (processVertex e b fr h)
      ⟨AP ++ RP, AL ++ RL, AN ++ RN, AM ++ RM,
       AP.length, AL.length, AN.length, AM.length, sv⟩ =
    ⟨AP ++ vertsCoords h vs ++ RP.drop (3 * vs.length),
     AL ++ (if b = true then vertsLows fr vs else []) ++
       RL.drop (if b = true then 2 * vs.length else 0),
     AN ++ (if e = true then vertsCoords h vs else []) ++
       RN.drop (if e = true then 3 * vs.length else 0),
     AM ++ (if e = true ∧ b = true then vertsLows fr vs else []) ++
       RM.drop (if e = true ∧ b = true then 2 * vs.length else 0),
     AP.length + 3 * vs.length,
     AL.length + (if b = true then 2 * vs.length else 0),
     AN.length + (if e = true then 3 * vs.length else 0),
     AM.length + (if e = true ∧ b = true then 2 * vs.length else 0),
     sv⟩ := by
  induction vs with
  | nil =>
    intro n0 AP AL AN AM RP RL RN RM sv _ _ _ _ _
    simp [vertsCoords, vertsLows]
  | cons v vs ih =>
    intro n0 AP AL AN AM RP RL RN RM sv hn0 hRP hRL hRN hRM
    simp only [List.length_cons] at hRP hRL hRN hRM
    rw [List.enumFrom_cons, List.foldl_cons]
    rw [processVertex_tail e b fr h n0 v AP AL AN AM RP RL RN RM sv hn0
      (by omega)
      (fun hb => by have := hRL hb; omega)
      (fun he => by have := hRN he; omega)
      (fun he hb => by have := hRM he hb; omega)]
    have hAP : (AP ++ coords3 h v).length = AP.length + 3 := by simp [coords3]
    have hAL : (AL ++ (if b = true then lows2 fr v else [])).length =
        AL.length + (if b = true then 2 else 0) := by
      cases b <;> simp [lows2]
    have hAN : (AN ++ (if e = true then coords3 h v else [])).length =
        AN.length + (if e = true then 3 else 0) := by
      cases e <;> simp [coords3]
    have hAM : (AM ++ (if e = true ∧ b = true then lows2 fr v else [])).length =
        AM.length + (if e = true ∧ b = true then 2 else 0) := by
      cases e <;> cases b <;> simp [lows2]
    have hstep := ih (n0 + 1) (AP ++ coords3 h v)
      (AL ++ (if b = true then lows2 fr v else []))
      (AN ++ (if e = true then coords3 h v else []))
      (AM ++ (if e = true ∧ b = true then lows2 fr v else []))
      (RP.drop 3) (RL.drop (if b = true then 2 else 0))
      (RN.drop (if e = true then 3 else 0))
      (RM.drop (if e = true ∧ b = true then 2 else 0)) sv
      (by omega)
      (by simp only [List.length_drop]; omega)
      (fun hb => by
        have := hRL hb
        simp only [List.length_drop, hb, if_pos]
        omega)
      (fun he => by
        have := hRN he
        simp only [List.length_drop, he, if_pos]
        omega)
      (fun he hb => by
        have := hRM he hb
        simp only [List.length_drop, he, hb, if_pos]
        simp only [and_self, if_pos]
        omega)
    rw [hAP, hAL, hAN, hAM] at hstep
    rw [hstep]
    cases e <;> cases b <;>
      simp_all [vertsCoords_cons, vertsLows_cons, List.append_assoc, List.drop_drop,
        coords3, lows2] <;>
      (repeat' apply And.intro) <;>
      first
        | omega
        | (congr 1 <;> omega)

theorem ite_tt (a c : α) : (if (true = true) then a else c) = a := if_pos rfl

theorem ite_tt2 (a c : α) : (if ((true = true) ∧ (true = true)) then a else c) = a :=
  if_pos ⟨rfl, rfl⟩

/-- One full ring through the source visitor: positions/lows gain the whole
ring's entries; the next buffers (when extruded) gain the flushed previous
pending vertex followed by the ring's tail vertices; the ring's first vertex
becomes the new pending start vertex. -/
theorem processRing_char (e b : Bool) (fr : ℚ → ℚ) (h : ℚ) (v0 : Point)
    (vt : List Point) (AP AL AN AM RP RL RN RM : List ℚ) (sv : Option StartVertex)
    (hRP : 3 * (vt.length + 1) ≤ RP.length)
    (hRL : b = true → 2 * (vt.length + 1) ≤ RL.length)
    (hRN : e = true → (flushC sv).length + 3 * vt.length ≤ RN.length)
    (hRM : e = true → b = true → (flushL sv).length + 2 * vt.length ≤ RM.length) :
    processRing e b fr h
      ⟨AP ++ RP, AL ++ RL, AN ++ RN, AM ++ RM,
       AP.length, AL.length, AN.length, AM.length, sv⟩ (v0 :: vt) =
    ⟨AP ++ vertsCoords h (v0 :: vt) ++ RP.drop (3 * (vt.length + 1)),
     AL ++ (if b = true then vertsLows fr (v0 :: vt) else []) ++
       RL.drop (if b = true then 2 * (vt.length + 1) else 0),
     AN ++ (if e = true then flushC sv ++ vertsCoords h vt else []) ++
       RN.drop (if e = true then (flushC sv).length + 3 * vt.length else 0),
     AM ++ (if e = true ∧ b = true then flushL sv ++ vertsLows fr vt else []) ++
       RM.drop (if e = true ∧ b = true then (flushL sv).length + 2 * vt.length else 0),
     AP.length + 3 * (vt.length + 1),
     AL.length + (if b = true then 2 * (vt.length + 1) else 0),
     AN.length + (if e = true then (flushC sv).length + 3 * vt.length else 0),
     AM.length + (if e = true ∧ b = true then (flushL sv).length + 2 * vt.length else 0),
     some (svOf fr h v0)⟩ := by
  unfold processRing
  have henum : (v0 :: vt).enum = (0, v0) :: List.enumFrom 1 vt := by
    rw [List.enum_eq_enumFrom, List.enumFrom_cons]
  rw [henum, List.foldl_cons]
  rw [processVertex_head e b fr h v0 AP AL AN AM RP RL RN RM sv
    (by omega)
    (fun hb => by have := hRL hb; omega)
    (fun he => by have := hRN he; omega)
    (fun he hb => by have := hRM he hb; omega)]
  have hAP : (AP ++ coords3 h v0).length = AP.length + 3 := by simp [coords3]
  have hAL : (AL ++ (if b = true then lows2 fr v0 else [])).length =
      AL.length + (if b = true then 2 else 0) := by
    cases b <;> simp [lows2]
  have hAN : (AN ++ (if e = true then flushC sv else [])).length =
      AN.length + (if e = true then (flushC sv).length else 0) := by
    cases e <;> simp
  have hAM : (AM ++ (if e = true ∧ b = true then flushL sv else [])).length =
      AM.length + (if e = true ∧ b = true then (flushL sv).length else 0) := by
    cases e <;> cases b <;> simp
  have hstep := foldTail_char e b fr h vt 1 (AP ++ coords3 h v0)
    (AL ++ (if b = true then lows2 fr v0 else []))
    (AN ++ (if e = true then flushC sv else []))
    (AM ++ (if e = true ∧ b = true then flushL sv else []))
    (RP.drop 3) (RL.drop (if b = true then 2 else 0))
    (RN.drop (if e = true then (flushC sv).length else 0))
    (RM.drop (if e = true ∧ b = true then (flushL sv).length else 0))
    (some (svOf fr h v0))
    le_rfl
    (by simp only [List.length_drop]; omega)
    (fun hb => by
      subst hb
      have := hRL rfl
      simp only [List.length_drop, eq_self_iff_true, and_self, if_true]
      omega)
    (fun he => by
      subst he
      have := hRN rfl
      simp only [List.length_drop, eq_self_iff_true, and_self, if_true]
      omega)
    (fun he hb => by
      subst he; subst hb
      have := hRM rfl rfl
      simp only [List.length_drop, eq_self_iff_true, and_self, if_true]
      omega)
  rw [hAP, hAL, hAN, hAM] at hstep
  rw [hstep]
  cases e <;> cases b <;>
    simp_all [vertsCoords_cons, vertsLows_cons, List.append_assoc, List.drop_drop] <;>
    (repeat' apply And.intro) <;>
    first
      | omega
      | (congr 1 <;> omega)

/-- One (height, ring) pair processed by the visitor loop. -/
def stepHR (e b : Bool) (fr : ℚ → ℚ) (s : UPState) (hr : ℚ × PRing) : UPState :=
  processRing e b fr hr.1 s hr.2

/-- Total vertex count of a (height, ring) list. -/
def vtotal (rs : List (ℚ × PRing)) : ℕ := (rs.map (fun hr => hr.2.length)).sum

/-- Position entries of a (height, ring) list, in write order. -/
def posOf (rs : List (ℚ × PRing)) : List ℚ :=
  (rs.map (fun hr => vertsCoords hr.1 hr.2)).flatten

/-- Low-part entries of a (height, ring) list, in write order. -/
def lowOf (fr : ℚ → ℚ) (rs : List (ℚ × PRing)) : List ℚ :=
  (rs.map (fun hr => vertsLows fr hr.2)).flatten

/-- The ring rotated left by one: `[v1, ..., v(m-1), v0]` — each slot holds
the next vertex along the ring, wrapping at the end. -/
def rot1 (r : List α) : List α := r.drop 1 ++ r.take 1

/-- Next-position entries of a (height, ring) list: per ring, the rotated
ring's coordinates. -/
def nextOf (rs : List (ℚ × PRing)) : List ℚ :=
  (rs.map (fun hr => vertsCoords hr.1 (rot1 hr.2))).flatten

/-- Next-position low entries of a (height, ring) list. -/
def nextLowOf (fr : ℚ → ℚ) (rs : List (ℚ × PRing)) : List ℚ :=
  (rs.map (fun hr => vertsLows fr (rot1 hr.2))).flatten

/-- Entries actually written to the next-positions buffer while processing
`rs` with pending start vertex `sv` (the final ring's start vertex stays
pending and is not yet written). -/
def nextWrittenC (fr : ℚ → ℚ) : Option StartVertex → List (ℚ × PRing) → List ℚ
  | _, [] => []
  | sv, hr :: rest =>
    flushC sv ++ vertsCoords hr.1 (hr.2.drop 1) ++
      nextWrittenC fr (some (svOf fr hr.1 (hr.2.headD []))) rest

/-- Low-part entries written to the next-positions low buffer. -/
def nextWrittenL (fr : ℚ → ℚ) : Option StartVertex → List (ℚ × PRing) → List ℚ
  | _, [] => []
  | sv, hr :: rest =>
    flushL sv ++ vertsLows fr (hr.2.drop 1) ++
      nextWrittenL fr (some (svOf fr hr.1 (hr.2.headD []))) rest

/-- The pending start vertex after processing `rs`. -/
def pendAfter (fr : ℚ → ℚ) : Option StartVertex → List (ℚ × PRing) → Option StartVertex
  | sv, [] => sv
  | _, hr :: rest => pendAfter fr (some (svOf fr hr.1 (hr.2.headD []))) rest

theorem foldRings_char (e b : Bool) (fr : ℚ → ℚ) (rs : List (ℚ × PRing)) :
    ∀ (AP AL AN AM RP RL RN RM : List ℚ) (sv : Option StartVertex),
    (∀ hr ∈ rs, hr.2 ≠ ([] : PRing)) →
    3 * vtotal rs ≤ RP.length →
    (b = true → 2 * vtotal rs ≤ RL.length) →
    (e = true → (nextWrittenC fr sv rs).length ≤ RN.length) →
    (e = true → b = true → (nextWrittenL fr sv rs).length ≤ RM.length) →
    rs.foldl (stepHR e b fr)
      ⟨AP ++ RP, AL ++ RL, AN ++ RN, AM ++ RM,
       AP.length, AL.length, AN.length, AM.length, sv⟩ =
    ⟨AP ++ posOf rs ++ RP.drop (3 * vtotal rs),
     AL ++ (if b = true then lowOf fr rs else []) ++
       RL.drop (if b = true then 2 * vtotal rs else 0),
     AN ++ (if e = true then nextWrittenC fr sv rs else []) ++
       RN.drop (if e = true then (nextWrittenC fr sv rs).length else 0),
     AM ++ (if e = true ∧ b = true then nextWrittenL fr sv rs else []) ++
       RM.drop (if e = true ∧ b = true then (nextWrittenL fr sv rs).length else 0),
     AP.length + 3 * vtotal rs,
     AL.length + (if b = true then 2 * vtotal rs else 0),
     AN.length + (if e = true then (nextWrittenC fr sv rs).length else 0),
     AM.length + (if e = true ∧ b = true then (nextWrittenL fr sv rs).length else 0),
     pendAfter fr sv rs⟩ := by
  induction rs with
  | nil =>
    intro AP AL AN AM RP RL RN RM sv _ _ _ _ _
    simp [posOf, lowOf, nextWrittenC, nextWrittenL, pendAfter, vtotal]
  | cons hr rest ih =>
    intro AP AL AN AM RP RL RN RM sv hne hRP hRL hRN hRM
    obtain ⟨hh, r⟩ := hr
    have hrne : r ≠ [] := hne (hh, r) (List.mem_cons_self _ _)
    obtain ⟨v0, vt, rfl⟩ := List.exists_cons_of_ne_nil hrne
    have hvt : vtotal ((hh, v0 :: vt) :: rest) = (vt.length + 1) + vtotal rest := by
      unfold vtotal
      simp only [List.map_cons, List.sum_cons, List.length_cons]
      try omega
    have hnwC : nextWrittenC fr sv ((hh, v0 :: vt) :: rest) =
        flushC sv ++ vertsCoords hh vt ++
          nextWrittenC fr (some (svOf fr hh v0)) rest := by
      simp [nextWrittenC]
    have hnwL : nextWrittenL fr sv ((hh, v0 :: vt) :: rest) =
        flushL sv ++ vertsLows fr vt ++
          nextWrittenL fr (some (svOf fr hh v0)) rest := by
      simp [nextWrittenL]
    rw [hvt] at hRP hRL
    rw [hnwC] at hRN
    rw [hnwL] at hRM
    simp only [List.length_append, vertsCoords_length, vertsLows_length] at hRN hRM
    rw [List.foldl_cons]
    simp only [stepHR]
    rw [processRing_char e b fr hh v0 vt AP AL AN AM RP RL RN RM sv
      (by omega)
      (fun hb => by have := hRL hb; omega)
      (fun he => by have := hRN he; omega)
      (fun he hb => by have := hRM he hb; omega)]
    have hAP : (AP ++ vertsCoords hh (v0 :: vt)).length = AP.length + 3 * (vt.length + 1) := by
      simp only [List.length_append, vertsCoords_length, List.length_cons]
      try omega
    have hAL : (AL ++ (if b = true then vertsLows fr (v0 :: vt) else [])).length =
        AL.length + (if b = true then 2 * (vt.length + 1) else 0) := by
      cases b <;> simp [vertsLows_length] <;> omega
    have hAN : (AN ++ (if e = true then flushC sv ++ vertsCoords hh vt else [])).length =
        AN.length + (if e = true then (flushC sv).length + 3 * vt.length else 0) := by
      cases e <;> simp [vertsCoords_length]
    have hAM : (AM ++ (if e = true ∧ b = true then flushL sv ++ vertsLows fr vt else [])).length =
        AM.length + (if e = true ∧ b = true then (flushL sv).length + 2 * vt.length else 0) := by
      cases e <;> cases b <;> simp [vertsLows_length]
    have hstep := ih (AP ++ vertsCoords hh (v0 :: vt))
      (AL ++ (if b = true then vertsLows fr (v0 :: vt) else []))
      (AN ++ (if e = true then flushC sv ++ vertsCoords hh vt else []))
      (AM ++ (if e = true ∧ b = true then flushL sv ++ vertsLows fr vt else []))
      (RP.drop (3 * (vt.length + 1)))
      (RL.drop (if b = true then 2 * (vt.length + 1) else 0))
      (RN.drop (if e = true then (flushC sv).length + 3 * vt.length else 0))
      (RM.drop (if e = true ∧ b = true then (flushL sv).length + 2 * vt.length else 0))
      (some (svOf fr hh v0))
      (fun hr hmem => hne hr (List.mem_cons_of_mem _ hmem))
      (by simp only [List.length_drop]; omega)
      (fun hb => by
        subst hb
        have := hRL rfl
        simp only [List.length_drop, eq_self_iff_true, and_self, if_true]
        omega)
      (fun he => by
        subst he
        have := hRN rfl
        simp only [List.length_drop, eq_self_iff_true, and_self, if_true]
        omega)
      (fun he hb => by
        subst he; subst hb
        have := hRM rfl rfl
        simp only [List.length_drop, eq_self_iff_true, and_self, if_true]
        omega)
    rw [hAP, hAL, hAN, hAM] at hstep
    have hpend : pendAfter fr sv ((hh, v0 :: vt) :: rest) =
        pendAfter fr (some (svOf fr hh v0)) rest := by
      simp [pendAfter]
    have hpos : posOf ((hh, v0 :: vt) :: rest) =
        vertsCoords hh (v0 :: vt) ++ posOf rest := by
      simp [posOf]
    have hlow : lowOf fr ((hh, v0 :: vt) :: rest) =
        vertsLows fr (v0 :: vt) ++ lowOf fr rest := by
      simp [lowOf]
    rw [hstep, hpos, hlow, hvt, hnwC, hnwL, hpend]
    cases e <;> cases b <;>
      simp [List.append_assoc, List.drop_drop, List.length_append,
        vertsCoords_length, vertsLows_length] <;>
      (repeat' apply And.intro) <;>
      first
        | omega
        | (congr 1 <;> omega)

theorem flushC_svOf (fr : ℚ → ℚ) (h : ℚ) (v : Point) :
    flushC (some (svOf fr h v)) = coords3 h v := rfl

theorem flushL_svOf (fr : ℚ → ℚ) (h : ℚ) (v : Point) :
    flushL (some (svOf fr h v)) = lows2 fr v := rfl

theorem vertsCoords_append (h : ℚ) (xs ys : List Point) :
    vertsCoords h (xs ++ ys) = vertsCoords h xs ++ vertsCoords h ys := by
  simp [vertsCoords]

theorem vertsLows_append (fr : ℚ → ℚ) (xs ys : List Point) :
    vertsLows fr (xs ++ ys) = vertsLows fr xs ++ vertsLows fr ys := by
  simp [vertsLows]

theorem rot1_cons (v0 : α) (vt : List α) : rot1 (v0 :: vt) = vt ++ [v0] := by
  simp [rot1]

theorem rot1_length (r : List α) : (rot1 r).length = r.length := by
  cases r <;> simp [rot1]

theorem posOf_length (rs : List (ℚ × PRing)) : (posOf rs).length = 3 * vtotal rs := by
  induction rs with
  | nil => rfl
  | cons hr rest ih =>
    simp only [posOf, vtotal, List.map_cons, List.flatten_cons, List.length_append,
      List.sum_cons, vertsCoords_length] at *
    rw [ih]
    ring

theorem lowOf_length (fr : ℚ → ℚ) (rs : List (ℚ × PRing)) :
    (lowOf fr rs).length = 2 * vtotal rs := by
  induction rs with
  | nil => rfl
  | cons hr rest ih =>
    simp only [lowOf, vtotal, List.map_cons, List.flatten_cons, List.length_append,
      List.sum_cons, vertsLows_length] at *
    rw [ih]
    ring

theorem nextOf_length (rs : List (ℚ × PRing)) : (nextOf rs).length = 3 * vtotal rs := by
  induction rs with
  | nil => rfl
  | cons hr rest ih =>
    simp only [nextOf, vtotal, List.map_cons, List.flatten_cons, List.length_append,
      List.sum_cons, vertsCoords_length, rot1_length] at *
    rw [ih]
    ring

theorem nextLowOf_length (fr : ℚ → ℚ) (rs : List (ℚ × PRing)) :
    (nextLowOf fr rs).length = 2 * vtotal rs := by
  induction rs with
  | nil => rfl
  | cons hr rest ih =>
    simp only [nextLowOf, vtotal, List.map_cons, List.flatten_cons, List.length_append,
      List.sum_cons, vertsLows_length, rot1_length] at *
    rw [ih]
    ring

theorem pendAfter_isSome (fr : ℚ → ℚ) (rs : List (ℚ × PRing)) :
    ∀ (sv : StartVertex), (pendAfter fr (some sv) rs).isSome = true := by
  induction rs with
  | nil => intro sv; rfl
  | cons hr rest ih => intro sv; simp only [pendAfter]; exact ih _

theorem nextWrittenC_rot (fr : ℚ → ℚ) (rs : List (ℚ × PRing)) :
    ∀ (sv : Option StartVertex), (∀ hr ∈ rs, hr.2 ≠ ([] : PRing)) →
    nextWrittenC fr sv rs ++ flushC (pendAfter fr sv rs) = flushC sv ++ nextOf rs := by
  induction rs with
  | nil => intro sv _; simp [nextWrittenC, pendAfter, nextOf]
  | cons hr rest ih =>
    intro sv hne
    obtain ⟨hh, r⟩ := hr
    have hrne : r ≠ [] := hne (hh, r) (List.mem_cons_self _ _)
    obtain ⟨v0, vt, rfl⟩ := List.exists_cons_of_ne_nil hrne
    have h1 := ih (some (svOf fr hh v0)) (fun x hx => hne x (List.mem_cons_of_mem _ hx))
    simp only [nextWrittenC, pendAfter, nextOf, List.map_cons, List.flatten_cons,
      List.drop_succ_cons, List.drop_zero, List.headD_cons]
    rw [List.append_assoc, List.append_assoc, h1, rot1_cons, vertsCoords_append]
    simp only [vertsCoords, flushC_svOf, List.map_cons, List.map_nil, List.flatten_cons,
      List.flatten_nil, List.append_nil, List.append_assoc, nextOf]

theorem nextWrittenL_rot (fr : ℚ → ℚ) (rs : List (ℚ × PRing)) :
    ∀ (sv : Option StartVertex), (∀ hr ∈ rs, hr.2 ≠ ([] : PRing)) →
    nextWrittenL fr sv rs ++ flushL (pendAfter fr sv rs) = flushL sv ++ nextLowOf fr rs := by
  induction rs with
  | nil => intro sv _; simp [nextWrittenL, pendAfter, nextLowOf]
  | cons hr rest ih =>
    intro sv hne
    obtain ⟨hh, r⟩ := hr
    have hrne : r ≠ [] := hne (hh, r) (List.mem_cons_self _ _)
    obtain ⟨v0, vt, rfl⟩ := List.exists_cons_of_ne_nil hrne
    have h1 := ih (some (svOf fr hh v0)) (fun x hx => hne x (List.mem_cons_of_mem _ hx))
    simp only [nextWrittenL, pendAfter, nextLowOf, List.map_cons, List.flatten_cons,
      List.drop_succ_cons, List.drop_zero, List.headD_cons]
    rw [List.append_assoc, List.append_assoc, h1, rot1_cons, vertsLows_append]
    simp only [vertsLows, flushL_svOf, List.map_cons, List.map_nil, List.flatten_cons,
      List.flatten_nil, List.append_nil, List.append_assoc, nextLowOf]

/-! ## Bridging the polygon loop to the (height, ring) list -/

/-- The (height, ring) pairs visited by the source polygon loop, in order:
each polygon contributes its rings, all paired with the polygon's height
(`extruded ? getHeight(polygonIndex) : 0`). -/
def ringsOf (ps : List CPoly) (getHeight : ℕ → ℚ) (e : Bool) : List (ℚ × PRing) :=
  (ps.enum.map
    (fun ip => ip.2.map (fun r => ((if e = true then getHeight ip.1 else 0), r)))).flatten

theorem runFold_eq (e b : Bool) (fr : ℚ → ℚ) (gH : ℕ → ℚ) (ips : List (ℕ × CPoly)) :
    ∀ (s : UPState) (l : List ℕ),
    ips.foldl (processPolygon e b fr gH) (s, l) =
    (((ips.map
        (fun ip => ip.2.map (fun r => ((if e = true then gH ip.1 else 0), r)))).flatten).foldl
       (stepHR e b fr) s,
     l ++ (if e = true then ips.map Prod.fst else [])) := by
  induction ips with
  | nil => intro s l; simp
  | cons ip ips ih =>
    intro s l
    rw [List.foldl_cons]
    simp only [processPolygon]
    rw [ih]
    simp only [Prod.mk.injEq]
    constructor
    · rw [List.map_cons, List.flatten_cons, List.foldl_append, List.foldl_map]
      rfl
    · cases e <;> simp

theorem vtotal_append (xs ys : List (ℚ × PRing)) :
    vtotal (xs ++ ys) = vtotal xs + vtotal ys := by
  simp [vtotal]

theorem vtotal_enumFrom (gH : ℕ → ℚ) (e : Bool) :
    ∀ (n : ℕ) (ps : List CPoly),
    vtotal (((List.enumFrom n ps).map
      (fun ip => ip.2.map (fun r => ((if e = true then gH ip.1 else 0), r)))).flatten) =
    (ps.map Polygon.getVertexCount).sum := by
  intro n ps
  induction ps generalizing n with
  | nil => rfl
  | cons p ps ih =>
    simp only [List.enumFrom, List.map_cons, List.flatten_cons, List.sum_cons]
    rw [vtotal_append, ih]
    congr 1
    simp only [vtotal, List.map_map, Polygon.getVertexCount]
    rfl

theorem vtotal_ringsOf (ps : List CPoly) (gH : ℕ → ℚ) (e : Bool) :
    vtotal (ringsOf ps gH e) = getPointCount ps := by
  rw [getPointCount_eq]
  exact vtotal_enumFrom gH e 0 ps

theorem snd_mem_of_mem_enumFrom :
    ∀ {l : List α} {ip : ℕ × α} (n : ℕ), ip ∈ List.enumFrom n l → ip.2 ∈ l := by
  intro l
  induction l with
  | nil => intro ip n h; simp [List.enumFrom] at h
  | cons x xs ih =>
    intro ip n h
    simp only [List.enumFrom, List.mem_cons] at h
    rcases h with h | h
    · subst h; exact List.mem_cons_self _ _
    · exact List.mem_cons_of_mem _ (ih (n + 1) h)

theorem ringsOf_ne (ps : List CPoly) (gH : ℕ → ℚ) (e : Bool)
    (hne : ∀ poly ∈ ps, ∀ r ∈ poly, r ≠ ([] : PRing)) :
    ∀ hr ∈ ringsOf ps gH e, hr.2 ≠ ([] : PRing) := by
  intro hr hmem
  unfold ringsOf at hmem
  rw [List.mem_flatten] at hmem
  obtain ⟨l, hl, hin⟩ := hmem
  rw [List.mem_map] at hl
  obtain ⟨ip, hip, rfl⟩ := hl
  rw [List.mem_map] at hin
  obtain ⟨r, hrmem, rfl⟩ := hin
  exact hne ip.2 (snd_mem_of_mem_enumFrom 0 hip) r hrmem

theorem flushC_length_le (sv : Option StartVertex) : (flushC sv).length ≤ 3 := by
  cases sv <;> simp [flushC]

theorem flushL_length_le (sv : Option StartVertex) : (flushL sv).length ≤ 2 := by
  cases sv <;> simp [flushL]

theorem drop_of_len_le (l : List α) (k : ℕ) (h : l.length ≤ k) : l.drop k = [] := by
  apply List.eq_nil_of_length_eq_zero
  rw [List.length_drop]
  omega

theorem updatePositionsRun_char (ps : List CPoly) (gH : ℕ → ℚ) (e b : Bool)
    (fr : ℚ → ℚ)
    (hne : ∀ poly ∈ ps, ∀ r ∈ poly, r ≠ ([] : PRing))
    (P L N M : List ℚ)
    (hP : P.length = 3 * getPointCount ps)
    (hL : b = true → L.length = 2 * getPointCount ps)
    (hN : e = true → N.length = 3 * getPointCount ps)
    (hM : e = true → b = true → M.length = 2 * getPointCount ps) :
    (updatePositionsRun ps gH e b fr ⟨P, L, N, M, 0, 0, 0, 0, none⟩).1.positions
        = posOf (ringsOf ps gH e) ∧
    (b = true → (updatePositionsRun ps gH e b fr ⟨P, L, N, M, 0, 0, 0, 0, none⟩).1.positions64xyLow
        = lowOf fr (ringsOf ps gH e)) ∧
    (e = true → (updatePositionsRun ps gH e b fr ⟨P, L, N, M, 0, 0, 0, 0, none⟩).1.nextPositions
        = nextOf (ringsOf ps gH e)) ∧
    (e = true → b = true →
      (updatePositionsRun ps gH e b fr ⟨P, L, N, M, 0, 0, 0, 0, none⟩).1.nextPositions64xyLow
        = nextLowOf fr (ringsOf ps gH e)) ∧
    (updatePositionsRun ps gH e b fr ⟨P, L, N, M, 0, 0, 0, 0, none⟩).2
        = (if e = true then List.range ps.length else []) := by
  have hne' : ∀ hr ∈ ringsOf ps gH e, hr.2 ≠ ([] : PRing) := ringsOf_ne ps gH e hne
  have hvt : vtotal (ringsOf ps gH e) = getPointCount ps := vtotal_ringsOf ps gH e
  have hrotC := nextWrittenC_rot fr (ringsOf ps gH e) none hne'
  have hrotL := nextWrittenL_rot fr (ringsOf ps gH e) none hne'
  have hlenC : (nextWrittenC fr none (ringsOf ps gH e)).length
      + (flushC (pendAfter fr none (ringsOf ps gH e))).length
      = 3 * vtotal (ringsOf ps gH e) := by
    have h := congrArg List.length hrotC
    simpa [flushC, nextOf_length] using h
  have hlenL : (nextWrittenL fr none (ringsOf ps gH e)).length
      + (flushL (pendAfter fr none (ringsOf ps gH e))).length
      = 2 * vtotal (ringsOf ps gH e) := by
    have h := congrArg List.length hrotL
    simpa [flushL, nextLowOf_length] using h
  have hfold := foldRings_char e b fr (ringsOf ps gH e) [] [] [] [] P L N M none hne'
    (by omega)
    (fun hb => by have := hL hb; omega)
    (fun hhe => by have := hN hhe; omega)
    (fun hhe hb => by have := hM hhe hb; omega)
  simp only [List.nil_append, List.length_nil] at hfold
  have hrs0 : ringsOf ps gH e =
      (ps.enum.map
        (fun ip => ip.2.map (fun r => ((if e = true then gH ip.1 else 0), r)))).flatten := rfl
  simp only [updatePositionsRun]
  rw [runFold_eq e b fr gH ps.enum ⟨P, L, N, M, 0, 0, 0, 0, none⟩ [], ← hrs0]
  rw [hfold]
  simp only [List.nil_append, List.enum_map_fst]
  cases hpa : pendAfter fr none (ringsOf ps gH e) with
  | none =>
    have hrs : ringsOf ps gH e = [] := by
      cases hrsc : ringsOf ps gH e with
      | nil => rfl
      | cons a l =>
        exfalso
        rw [hrsc] at hpa
        have hsome := pendAfter_isSome fr l (svOf fr a.1 (a.2.headD []))
        rw [show pendAfter fr none (a :: l) =
            pendAfter fr (some (svOf fr a.1 (a.2.headD []))) l from rfl] at hpa
        rw [hpa] at hsome
        simp at hsome
    rw [hrs] at hvt
    simp only [vtotal, List.map_nil, List.sum_nil] at hvt
    rw [hrs]
    simp only [posOf, lowOf, nextOf, nextLowOf, nextWrittenC, nextWrittenL, vtotal,
      List.map_nil, List.flatten_nil, List.sum_nil, Nat.mul_zero, List.drop_zero,
      List.length_nil, List.append_nil, List.nil_append, popStartVertex, ite_self]
    refine ⟨?_, ?_, ?_, ?_, trivial⟩
    · exact List.eq_nil_of_length_eq_zero (by omega)
    · intro hb
      exact List.eq_nil_of_length_eq_zero (by have := hL hb; omega)
    · intro hhe
      exact List.eq_nil_of_length_eq_zero (by have := hN hhe; omega)
    · intro hhe hb
      exact List.eq_nil_of_length_eq_zero (by have := hM hhe hb; omega)
  | some sv =>
    rw [hpa] at hlenC hlenL hrotC hrotL
    simp only [flushC, flushL, List.length_cons, List.length_nil,
      List.nil_append] at hlenC hlenL hrotC hrotL
    have hPdrop : P.drop (3 * vtotal (ringsOf ps gH e)) = [] :=
      drop_of_len_le _ _ (by omega)
    have hLdrop : b = true → L.drop (2 * vtotal (ringsOf ps gH e)) = [] := fun hb =>
      drop_of_len_le _ _ (by have := hL hb; omega)
    cases e with
    | false =>
      simp only [Bool.false_eq_true, if_false, false_and, List.nil_append,
        List.drop_zero, popStartVertex]
      refine ⟨?_, ?_, ?_, ?_, trivial⟩
      · rw [hPdrop, List.append_nil]
      · intro hb
        subst hb
        simp only [eq_self_iff_true, if_true]
        rw [hLdrop rfl, List.append_nil]
      · intro hhe; exact absurd hhe (by simp)
      · intro hhe; exact absurd hhe (by simp)
    | true =>
      have hNlen := hN rfl
      have hNdrop3 : (N.drop (nextWrittenC fr none (ringsOf ps gH true)).length).length = 3 := by
        rw [List.length_drop]
        omega
      have hwC : writeAt
          ((nextWrittenC fr none (ringsOf ps gH true)) ++
            N.drop (nextWrittenC fr none (ringsOf ps gH true)).length)
          (nextWrittenC fr none (ringsOf ps gH true)).length [sv.x, sv.y, sv.z] =
          nextOf (ringsOf ps gH true) := by
        rw [writeAt_spec [sv.x, sv.y, sv.z] _ _ (by rw [hNdrop3]; simp)]
        rw [drop_of_len_le _ _ (by rw [hNdrop3]; simp), List.append_nil]
        exact hrotC
      cases b with
      | false =>
        simp only [eq_self_iff_true, if_true, Bool.false_eq_true, if_false, and_false,
          false_and, List.nil_append, List.drop_zero, popStartVertex, Nat.zero_add]
        refine ⟨?_, ?_, ?_, ?_, trivial⟩
        · rw [hPdrop, List.append_nil]
        · intro hb; exact absurd hb (by simp)
        · intro _
          exact hwC
        · intro _ hb; exact absurd hb (by simp)
      | true =>
        have hMlen := hM rfl rfl
        have hMdrop2 : (M.drop (nextWrittenL fr none (ringsOf ps gH true)).length).length = 2 := by
          rw [List.length_drop]
          omega
        have hwL : writeAt
            ((nextWrittenL fr none (ringsOf ps gH true)) ++
              M.drop (nextWrittenL fr none (ringsOf ps gH true)).length)
            (nextWrittenL fr none (ringsOf ps gH true)).length [sv.xLow, sv.yLow] =
            nextLowOf fr (ringsOf ps gH true) := by
          rw [writeAt_spec [sv.xLow, sv.yLow] _ _ (by rw [hMdrop2]; simp)]
          rw [drop_of_len_le _ _ (by rw [hMdrop2]; simp), List.append_nil]
          exact hrotL
        simp only [eq_self_iff_true, and_self, if_true, List.nil_append,
          popStartVertex, Nat.zero_add]
        refine ⟨?_, ?_, ?_, ?_, trivial⟩
        · rw [hPdrop, List.append_nil]
        · intro _
          rw [hLdrop rfl, List.append_nil]
        · intro _
          exact hwC
        · intro _ _
          exact hwL

/-! ## Per-vertex slot indexing of the position buffers -/

/-- Vertex offset of ring `r` within one polygon: total vertex count of the
rings before it. -/
def ringOffset (poly : CPoly) (r : ℕ) : ℕ := ((poly.take r).map List.length).sum

/-- Global vertex index of vertex `k` of ring `r` of polygon `p` in the
shared flat buffers. -/
def vIdx (polygons : List CPoly) (p r k : ℕ) : ℕ :=
  vOffset polygons p + ringOffset (polygons.getD p []) r + k

theorem list_eq_of_length_three (l : List α) (d : α) (h : l.length = 3) :
    [l.getD 0 d, l.getD 1 d, l.getD 2 d] = l := by
  rcases l with _ | ⟨a, l⟩
  · simp at h
  rcases l with _ | ⟨b, l⟩
  · simp at h
  rcases l with _ | ⟨c, l⟩
  · simp at h
  rcases l with _ | ⟨e, l⟩
  · rfl
  · simp at h

theorem list_eq_of_length_two (l : List α) (d : α) (h : l.length = 2) :
    [l.getD 0 d, l.getD 1 d] = l := by
  rcases l with _ | ⟨a, l⟩
  · simp at h
  rcases l with _ | ⟨b, l⟩
  · simp at h
  rcases l with _ | ⟨c, l⟩
  · rfl
  · simp at h

theorem flatten_flatten_eq (l : List (List (List α))) :
    l.flatten.flatten = (l.map List.flatten).flatten := by
  induction l with
  | nil => rfl
  | cons a l ih =>
    rw [List.flatten_cons, List.flatten_append, ih, List.map_cons, List.flatten_cons]

theorem flatten_map_flatten (f : α → List (List β)) (l : List α) :
    (l.map (fun a => (f a).flatten)).flatten = ((l.map f).flatten).flatten := by
  rw [flatten_flatten_eq, List.map_map]
  rfl

theorem enumFrom_take : ∀ (l : List α) (n p : ℕ),
    (List.enumFrom n l).take p = List.enumFrom n (l.take p) := by
  intro l
  induction l with
  | nil => intro n p; simp [List.enumFrom]
  | cons x xs ih =>
    intro n p
    cases p with
    | zero => simp
    | succ p => simp [List.enumFrom, List.take_succ_cons, ih]

theorem sum_take_getD_lt (l : List ℕ) (r k : ℕ) (hr : r < l.length) (hk : k < l.getD r 0) :
    (l.take r).sum + k < l.sum := by
  have hget : l.getD r 0 = l[r] := by
    rw [List.getD_eq_getElem?_getD, List.getElem?_eq_getElem hr]
    rfl
  have hsplit : l.sum = (l.take r).sum + (l.drop r).sum := by
    conv_lhs => rw [← List.take_append_drop r l]
    rw [List.sum_append]
  have hdrop : (l.drop r).sum = l[r] + (l.drop (r + 1)).sum := by
    rw [List.drop_eq_getElem_cons (by simpa using hr), List.sum_cons]
  rw [hget] at hk
  omega

theorem ringOffset_add_lt (poly : CPoly) (r k : ℕ) (hr : r < poly.length)
    (hk : k < (poly.getD r []).length) :
    ringOffset poly r + k < Polygon.getVertexCount poly := by
  have h := sum_take_getD_lt (poly.map List.length) r k (by simpa using hr)
    (by rw [getD_map_of_lt poly List.length r 0 [] hr]; exact hk)
  unfold ringOffset Polygon.getVertexCount
  rw [List.map_take]
  exact h

theorem vIdx_lt (ps : List CPoly) (p r k : ℕ) (hp : p < ps.length)
    (hr : r < (ps.getD p []).length) (hk : k < ((ps.getD p []).getD r []).length) :
    vIdx ps p r k < getPointCount ps := by
  unfold vIdx
  have h1 := ringOffset_add_lt (ps.getD p []) r k hr hk
  have h2 := vOffset_le_total ps p (ringOffset (ps.getD p []) r + k) hp h1
  omega

theorem prefLen_enum_map (ps : List CPoly) (f : ℕ × CPoly → List (List ℚ))
    (w : CPoly → ℕ) (hlen : ∀ ip : ℕ × CPoly, (f ip).length = w ip.2) (p : ℕ) :
    prefLen (ps.enum.map f) p = ((ps.take p).map w).sum := by
  unfold prefLen
  rw [← List.map_take]
  simp only [List.enum]
  rw [enumFrom_take, List.map_map]
  have hcomp : (List.length ∘ f) = fun ip : ℕ × CPoly => w ip.2 := funext hlen
  rw [hcomp]
  exact congrArg List.sum (getD_map_snd_enum (ps.take p) w)

theorem getD_flatten_enum (ps : List CPoly) (f : ℕ × CPoly → List (List ℚ))
    (hlen : ∀ ip : ℕ × CPoly, (f ip).length = Polygon.getVertexCount ip.2)
    (p t : ℕ) (d : List ℚ) (hp : p < ps.length)
    (ht : t < (f (p, ps.getD p [])).length) :
    ((ps.enum.map f).flatten).getD (vOffset ps p + t) d = (f (p, ps.getD p [])).getD t d := by
  have hgrp : (ps.enum.map f).getD p [] = f (p, ps.getD p []) := by
    rw [getD_map_of_lt ps.enum f p [] (0, []) (by simpa using hp)]
    rw [getD_enum ps p (0, []) [] hp]
  have hpref : prefLen (ps.enum.map f) p = vOffset ps p :=
    prefLen_enum_map ps f Polygon.getVertexCount hlen p
  rw [← hpref, getD_flatten_group (ps.enum.map f) p t d (by simpa using hp)
    (by rw [hgrp]; exact ht), hgrp]

theorem slot3_chunks (L : List (List α)) (d : α) (v : ℕ)
    (hall : ∀ c ∈ L, c.length = 3) (hv : v < L.length) :
    slot3 L.flatten d v = L.getD v [] := by
  have h0 := getD_flatten_chunks L 3 v 0 d hall hv (by omega)
  have h1 := getD_flatten_chunks L 3 v 1 d hall hv (by omega)
  have h2 := getD_flatten_chunks L 3 v 2 d hall hv (by omega)
  rw [Nat.add_zero] at h0
  unfold slot3
  rw [h0, h1, h2]
  have hcv : L.getD v [] = L[v] := by
    rw [List.getD_eq_getElem?_getD, List.getElem?_eq_getElem hv]
    rfl
  have hcmem : L.getD v [] ∈ L := by
    rw [hcv]
    exact List.getElem_mem hv
  exact list_eq_of_length_three (L.getD v []) d (hall _ hcmem)

theorem slot2_chunks (L : List (List α)) (d : α) (v : ℕ)
    (hall : ∀ c ∈ L, c.length = 2) (hv : v < L.length) :
    slot2 L.flatten d v = L.getD v [] := by
  have h0 := getD_flatten_chunks L 2 v 0 d hall hv (by omega)
  have h1 := getD_flatten_chunks L 2 v 1 d hall hv (by omega)
  rw [Nat.add_zero] at h0
  unfold slot2
  rw [h0, h1]
  have hcv : L.getD v [] = L[v] := by
    rw [List.getD_eq_getElem?_getD, List.getElem?_eq_getElem hv]
    rfl
  have hcmem : L.getD v [] ∈ L := by
    rw [hcv]
    exact List.getElem_mem hv
  exact list_eq_of_length_two (L.getD v []) d (hall _ hcmem)

theorem rot1_getD (rng : List α) (k : ℕ) (d : α) (h : k < rng.length) :
    (rot1 rng).getD k d = rng.getD ((k + 1) % rng.length) d := by
  unfold rot1
  have hdlen : (rng.drop 1).length = rng.length - 1 := by simp
  by_cases hlt : k + 1 < rng.length
  · rw [getD_append_left _ _ k d (by omega)]
    rw [List.getD_eq_getElem?_getD, List.getElem?_drop, ← List.getD_eq_getElem?_getD]
    rw [Nat.mod_eq_of_lt hlt, Nat.add_comm 1 k]
  · have hk1 : k + 1 = rng.length := by omega
    have hkd : k = (rng.drop 1).length := by omega
    rw [hk1, Nat.mod_self, hkd]
    have hadd := getD_append_add (rng.drop 1) (rng.take 1) 0 d
    rw [Nat.add_zero] at hadd
    rw [hadd]
    cases rng with
    | nil => simp at h
    | cons x xs => rfl

theorem map_flatten_eq (f : α → β) (l : List (List α)) :
    l.flatten.map f = (l.map (List.map f)).flatten := by
  induction l with
  | nil => rfl
  | cons a l ih => simp only [List.flatten_cons, List.map_append, ih, List.map_cons]

/-- Generic per-vertex chunk extraction from a two-level (polygon, ring)
flatten, with a per-ring transform `T` that preserves length and a
polygon-indexed per-vertex chunk function `V`. -/
theorem chunks_ringsOf_getD_gen (ps : List CPoly) (T : PRing → PRing)
    (hT : ∀ rng, (T rng).length = rng.length)
    (V : ℕ → Point → List ℚ) (p r k : ℕ)
    (hp : p < ps.length) (hr : r < (ps.getD p []).length)
    (hk : k < ((ps.getD p []).getD r []).length) :
    ((ps.enum.map (fun ip => (ip.2.map (fun rng => (T rng).map (V ip.1))).flatten)).flatten).getD
      (vIdx ps p r k) [] = V p ((T ((ps.getD p []).getD r [])).getD k []) := by
  have hlen : ∀ ip : ℕ × CPoly,
      ((ip.2.map (fun rng => (T rng).map (V ip.1))).flatten).length =
        Polygon.getVertexCount ip.2 := by
    intro ip
    simp only [List.length_flatten, List.map_map, Polygon.getVertexCount]
    congr 1
    apply List.map_congr_left
    intro a _
    simp [List.length_map, hT]
  have hbound : ringOffset (ps.getD p []) r + k <
      (((ps.getD p []).map (fun rng => (T rng).map (V p))).flatten).length := by
    rw [hlen (p, ps.getD p [])]
    exact ringOffset_add_lt (ps.getD p []) r k hr hk
  unfold vIdx
  rw [Nat.add_assoc]
  rw [getD_flatten_enum ps
    (fun ip => (ip.2.map (fun rng => (T rng).map (V ip.1))).flatten) hlen
    p (ringOffset (ps.getD p []) r + k) [] hp hbound]
  have hgrp : ((ps.getD p []).map (fun rng => (T rng).map (V p))).getD r [] =
      (T ((ps.getD p []).getD r [])).map (V p) :=
    getD_map_of_lt (ps.getD p []) (fun rng => (T rng).map (V p)) r [] [] hr
  have hpref : prefLen ((ps.getD p []).map (fun rng => (T rng).map (V p))) r =
      ringOffset (ps.getD p []) r := by
    unfold prefLen ringOffset
    rw [← List.map_take, List.map_map]
    congr 1
    apply List.map_congr_left
    intro a _
    simp [List.length_map, hT]
  rw [← hpref, getD_flatten_group _ r k []
    (by simpa using hr)
    (by rw [hgrp, List.length_map, hT]; exact hk), hgrp]
  exact getD_map_of_lt (T ((ps.getD p []).getD r [])) (V p) k [] []
    (by rw [hT]; exact hk)

/-- Per-vertex 3-entry chunks of the position entries. -/
def chunksC (rs : List (ℚ × PRing)) : List (List ℚ) :=
  (rs.map (fun hr => hr.2.map (coords3 hr.1))).flatten

/-- Per-vertex 2-entry chunks of the low-part entries. -/
def chunksL (fr : ℚ → ℚ) (rs : List (ℚ × PRing)) : List (List ℚ) :=
  (rs.map (fun hr => hr.2.map (lows2 fr))).flatten

/-- Per-vertex 3-entry chunks of the next-position entries. -/
def chunksN (rs : List (ℚ × PRing)) : List (List ℚ) :=
  (rs.map (fun hr => (rot1 hr.2).map (coords3 hr.1))).flatten

theorem posOf_eq_chunks (rs : List (ℚ × PRing)) : posOf rs = (chunksC rs).flatten := by
  unfold posOf chunksC vertsCoords
  exact flatten_map_flatten (fun hr => hr.2.map (coords3 hr.1)) rs

theorem lowOf_eq_chunks (fr : ℚ → ℚ) (rs : List (ℚ × PRing)) :
    lowOf fr rs = (chunksL fr rs).flatten := by
  unfold lowOf chunksL vertsLows
  exact flatten_map_flatten (fun hr => hr.2.map (lows2 fr)) rs

theorem nextOf_eq_chunks (rs : List (ℚ × PRing)) : nextOf rs = (chunksN rs).flatten := by
  unfold nextOf chunksN vertsCoords
  exact flatten_map_flatten (fun hr => (rot1 hr.2).map (coords3 hr.1)) rs

theorem chunksC_all3 (rs : List (ℚ × PRing)) : ∀ c ∈ chunksC rs, c.length = 3 := by
  intro c hc
  unfold chunksC at hc
  rw [List.mem_flatten] at hc
  obtain ⟨l, hl, hcl⟩ := hc
  rw [List.mem_map] at hl
  obtain ⟨hr, _, rfl⟩ := hl
  rw [List.mem_map] at hcl
  obtain ⟨v, _, rfl⟩ := hcl
  rfl

theorem chunksN_all3 (rs : List (ℚ × PRing)) : ∀ c ∈ chunksN rs, c.length = 3 := by
  intro c hc
  unfold chunksN at hc
  rw [List.mem_flatten] at hc
  obtain ⟨l, hl, hcl⟩ := hc
  rw [List.mem_map] at hl
  obtain ⟨hr, _, rfl⟩ := hl
  rw [List.mem_map] at hcl
  obtain ⟨v, _, rfl⟩ := hcl
  rfl

theorem chunksL_all2 (fr : ℚ → ℚ) (rs : List (ℚ × PRing)) :
    ∀ c ∈ chunksL fr rs, c.length = 2 := by
  intro c hc
  unfold chunksL at hc
  rw [List.mem_flatten] at hc
  obtain ⟨l, hl, hcl⟩ := hc
  rw [List.mem_map] at hl
  obtain ⟨hr, _, rfl⟩ := hl
  rw [List.mem_map] at hcl
  obtain ⟨v, _, rfl⟩ := hcl
  rfl

theorem chunksC_length (rs : List (ℚ × PRing)) : (chunksC rs).length = vtotal rs := by
  simp only [chunksC, vtotal, List.length_flatten, List.map_map]
  congr 1
  apply List.map_congr_left
  intro a _
  simp [List.length_map]

theorem chunksN_length (rs : List (ℚ × PRing)) : (chunksN rs).length = vtotal rs := by
  simp only [chunksN, vtotal, List.length_flatten, List.map_map]
  congr 1
  apply List.map_congr_left
  intro a _
  simp [List.length_map, rot1_length]

theorem chunksL_length (fr : ℚ → ℚ) (rs : List (ℚ × PRing)) :
    (chunksL fr rs).length = vtotal rs := by
  simp only [chunksL, vtotal, List.length_flatten, List.map_map]
  congr 1
  apply List.map_congr_left
  intro a _
  simp [List.length_map]

theorem chunksC_ringsOf (ps : List CPoly) (gH : ℕ → ℚ) (e : Bool) :
    chunksC (ringsOf ps gH e) =
      (ps.enum.map (fun ip =>
        (ip.2.map (fun rng =>
          rng.map (coords3 (if e = true then gH ip.1 else 0)))).flatten)).flatten := by
  unfold chunksC ringsOf
  rw [map_flatten_eq, flatten_flatten_eq, List.map_map, List.map_map]
  congr 1
  apply List.map_congr_left
  intro ip _
  simp only [Function.comp]
  rw [List.map_map]
  rfl

theorem chunksL_ringsOf (fr : ℚ → ℚ) (ps : List CPoly) (gH : ℕ → ℚ) (e : Bool) :
    chunksL fr (ringsOf ps gH e) =
      (ps.enum.map (fun ip =>
        (ip.2.map (fun rng => rng.map (lows2 fr))).flatten)).flatten := by
  unfold chunksL ringsOf
  rw [map_flatten_eq, flatten_flatten_eq, List.map_map, List.map_map]
  congr 1
  apply List.map_congr_left
  intro ip _
  simp only [Function.comp]
  rw [List.map_map]
  rfl

theorem chunksN_ringsOf (ps : List CPoly) (gH : ℕ → ℚ) (e : Bool) :
    chunksN (ringsOf ps gH e) =
      (ps.enum.map (fun ip =>
        (ip.2.map (fun rng =>
          (rot1 rng).map (coords3 (if e = true then gH ip.1 else 0)))).flatten)).flatten := by
  unfold chunksN ringsOf
  rw [map_flatten_eq, flatten_flatten_eq, List.map_map, List.map_map]
  congr 1
  apply List.map_congr_left
  intro ip _
  simp only [Function.comp]
  rw [List.map_map]
  rfl

theorem positions_slot (ps : List CPoly) (gH : ℕ → ℚ) (e : Bool) (p r k : ℕ)
    (hp : p < ps.length) (hr : r < (ps.getD p []).length)
    (hk : k < ((ps.getD p []).getD r []).length) :
    slot3 (posOf (ringsOf ps gH e)) 0 (vIdx ps p r k) =
      coords3 (if e = true then gH p else 0) (((ps.getD p []).getD r []).getD k []) := by
  rw [posOf_eq_chunks, slot3_chunks _ 0 _ (chunksC_all3 _)
    (by rw [chunksC_length, vtotal_ringsOf]; exact vIdx_lt ps p r k hp hr hk)]
  rw [chunksC_ringsOf]
  exact chunks_ringsOf_getD_gen ps (fun rng => rng) (fun _ => rfl)
    (fun i => coords3 (if e = true then gH i else 0)) p r k hp hr hk

theorem low_slot (fr : ℚ → ℚ) (ps : List CPoly) (gH : ℕ → ℚ) (e : Bool) (p r k : ℕ)
    (hp : p < ps.length) (hr : r < (ps.getD p []).length)
    (hk : k < ((ps.getD p []).getD r []).length) :
    slot2 (lowOf fr (ringsOf ps gH e)) 0 (vIdx ps p r k) =
      lows2 fr (((ps.getD p []).getD r []).getD k []) := by
  rw [lowOf_eq_chunks, slot2_chunks _ 0 _ (chunksL_all2 fr _)
    (by rw [chunksL_length, vtotal_ringsOf]; exact vIdx_lt ps p r k hp hr hk)]
  rw [chunksL_ringsOf]
  exact chunks_ringsOf_getD_gen ps (fun rng => rng) (fun _ => rfl)
    (fun _ => lows2 fr) p r k hp hr hk

theorem next_slot (ps : List CPoly) (gH : ℕ → ℚ) (e : Bool) (p r k : ℕ)
    (hp : p < ps.length) (hr : r < (ps.getD p []).length)
    (hk : k < ((ps.getD p []).getD r []).length) :
    slot3 (nextOf (ringsOf ps gH e)) 0 (vIdx ps p r k) =
      coords3 (if e = true then gH p else 0)
        (((ps.getD p []).getD r []).getD
          ((k + 1) % ((ps.getD p []).getD r []).length) []) := by
  rw [nextOf_eq_chunks, slot3_chunks _ 0 _ (chunksN_all3 _)
    (by rw [chunksN_length, vtotal_ringsOf]; exact vIdx_lt ps p r k hp hr hk)]
  rw [chunksN_ringsOf]
  have h := chunks_ringsOf_getD_gen ps rot1 rot1_length
    (fun i => coords3 (if e = true then gH i else 0)) p r k hp hr hk
  rw [h, rot1_getD _ k [] hk]

/-- Size invariant of a tesselator: the cached `pointCount` matches the
polygons, and any already-allocated buffer has the size the source allocates
(`pointCount*3` positions, `pointCount*2` low parts).  It holds after
construction (all buffers absent) and is what a previous `updatePositions`
call leaves behind. -/
def PolygonTesselator.sized (t : PolygonTesselator) : Prop :=
  t.pointCount = getPointCount t.polygons ∧
  (∀ buf, t.attributes.positions = some buf → buf.length = 3 * getPointCount t.polygons) ∧
  (∀ buf, t.attributes.nextPositions = some buf → buf.length = 3 * getPointCount t.polygons) ∧
  (∀ buf, t.attributes.positions64xyLow = some buf →
    buf.length = 2 * getPointCount t.polygons) ∧
  (∀ buf, t.attributes.nextPositions64xyLow = some buf →
    buf.length = 2 * getPointCount t.polygons)

theorem updatePositions_buffers (t : PolygonTesselator) (e b : Bool) (gH : ℕ → ℚ)
    (fr : ℚ → ℚ) (hsz : t.sized)
    (hne : ∀ poly ∈ t.polygons, ∀ r ∈ poly, r ≠ ([] : PRing)) :
    (t.updatePositions e b gH fr).1.positionsAttr =
      some (posOf (ringsOf t.polygons gH e)) ∧
    (b = true → (t.updatePositions e b gH fr).1.positions64xyLowAttr =
      some (lowOf fr (ringsOf t.polygons gH e))) ∧
    (e = true → (t.updatePositions e b gH fr).1.nextPositionsAttr =
      some (nextOf (ringsOf t.polygons gH e))) ∧
    (t.updatePositions e b gH fr).2 =
      (if e = true then List.range t.polygons.length else []) := by
  obtain ⟨hpc, hsP, hsN, hsL, hsM⟩ := hsz
  have hP : (t.attributes.positions.getD (List.replicate (t.pointCount * 3) 0)).length
      = 3 * getPointCount t.polygons := by
    cases hopt : t.attributes.positions with
    | none => simp [List.length_replicate, hpc, Nat.mul_comm]
    | some buf => simpa using hsP buf hopt
  have hN : (t.attributes.nextPositions.getD (List.replicate (t.pointCount * 3) 0)).length
      = 3 * getPointCount t.polygons := by
    cases hopt : t.attributes.nextPositions with
    | none => simp [List.length_replicate, hpc, Nat.mul_comm]
    | some buf => simpa using hsN buf hopt
  have hL : b = true →
      ((if b = true then t.attributes.positions64xyLow.getD (List.replicate (t.pointCount * 2) 0)
        else t.attributes.positions64xyLow.getD [])).length
      = 2 * getPointCount t.polygons := by
    intro hb
    subst hb
    simp only [eq_self_iff_true, if_true]
    cases hopt : t.attributes.positions64xyLow with
    | none => simp [List.length_replicate, hpc, Nat.mul_comm]
    | some buf => simpa using hsL buf hopt
  have hM : e = true → b = true →
      ((if b = true then
          t.attributes.nextPositions64xyLow.getD (List.replicate (t.pointCount * 2) 0)
        else t.attributes.nextPositions64xyLow.getD [])).length
      = 2 * getPointCount t.polygons := by
    intro _ hb
    subst hb
    simp only [eq_self_iff_true, if_true]
    cases hopt : t.attributes.nextPositions64xyLow with
    | none => simp [List.length_replicate, hpc, Nat.mul_comm]
    | some buf => simpa using hsM buf hopt
  have hchar := updatePositionsRun_char t.polygons gH e b fr hne
    (t.attributes.positions.getD (List.replicate (t.pointCount * 3) 0))
    ((if b = true then t.attributes.positions64xyLow.getD (List.replicate (t.pointCount * 2) 0)
      else t.attributes.positions64xyLow.getD []))
    (t.attributes.nextPositions.getD (List.replicate (t.pointCount * 3) 0))
    ((if b = true then
        t.attributes.nextPositions64xyLow.getD (List.replicate (t.pointCount * 2) 0)
      else t.attributes.nextPositions64xyLow.getD []))
    hP hL (fun _ => hN) hM
  refine ⟨?_, ?_, ?_, ?_⟩
  · simp only [PolygonTesselator.updatePositions, PolygonTesselator.positionsAttr]
    exact congrArg some hchar.1
  · intro hb
    subst hb
    simp only [PolygonTesselator.updatePositions, PolygonTesselator.positions64xyLowAttr,
      eq_self_iff_true, if_true]
    exact congrArg some (hchar.2.1 rfl)
  · intro hhe
    simp only [PolygonTesselator.updatePositions, PolygonTesselator.nextPositionsAttr]
    exact congrArg some (hchar.2.2.1 hhe)
  · simp only [PolygonTesselator.updatePositions]
    exact hchar.2.2.2.2

/-! ## Claims C6, C7, C8 -/

/-- C6: for every `updatePositions` call on a size-consistent tesselator with
non-empty rings: the height accessor is called exactly once per polygon when
extrusion is on (the call log lists each polygon index once, in order) and
never when it is off; and the position buffer entry at the global slot of
vertex `k` of ring `r` of polygon `p` is `(x, y, z + height)` with `height =
getHeight(p)` under extrusion and `0` otherwise, a missing `z` read as `0`
(`jsGet v 2` defaults to `0`). -/
theorem C6_height_once_per_polygon (t : PolygonTesselator) (e b : Bool)
    (gH : ℕ → ℚ) (fr : ℚ → ℚ) (hsz : t.sized)
    (hne : ∀ poly ∈ t.polygons, ∀ r ∈ poly, r ≠ ([] : PRing))
    (p r k : ℕ) (hp : p < t.polygons.length)
    (hr : r < (t.polygons.getD p []).length)
    (hk : k < ((t.polygons.getD p []).getD r []).length) :
    (t.updatePositions e b gH fr).2 =
      (if e = true then List.range t.polygons.length else []) ∧
    ∃ buf, (t.updatePositions e b gH fr).1.positionsAttr = some buf ∧
      slot3 buf 0 (vIdx t.polygons p r k) =
        [jsGet (((t.polygons.getD p []).getD r []).getD k []) 0,
         jsGet (((t.polygons.getD p []).getD r []).getD k []) 1,
         jsGet (((t.polygons.getD p []).getD r []).getD k []) 2 +
           (if e = true then gH p else 0)] := by
  have hb := updatePositions_buffers t e b gH fr hsz hne
  refine ⟨hb.2.2.2, posOf (ringsOf t.polygons gH e), hb.1, ?_⟩
  rw [positions_slot t.polygons gH e p r k hp hr hk]
  rfl

theorem C6_height_once_per_polygon_witness :
    ((PolygonTesselator.construct demoSet).updatePositions true true
        (fun _ => (7 : ℚ)) id).2 = List.range 2 ∧
    ∃ buf, ((PolygonTesselator.construct demoSet).updatePositions true true
        (fun _ => (7 : ℚ)) id).1.positionsAttr = some buf ∧
      slot3 buf 0 (vIdx (PolygonTesselator.construct demoSet).polygons 1 1 2) =
        [jsGet ((((PolygonTesselator.construct demoSet).polygons.getD 1 []).getD 1
            []).getD 2 []) 0,
         jsGet ((((PolygonTesselator.construct demoSet).polygons.getD 1 []).getD 1
            []).getD 2 []) 1,
         jsGet ((((PolygonTesselator.construct demoSet).polygons.getD 1 []).getD 1
            []).getD 2 []) 2 + 7] :=
  C6_height_once_per_polygon (PolygonTesselator.construct demoSet) true true
    (fun _ => (7 : ℚ)) id
    ⟨rfl, fun _ h => Option.noConfusion h, fun _ h => Option.noConfusion h,
     fun _ h => Option.noConfusion h, fun _ h => Option.noConfusion h⟩
    (by decide) 1 1 2 (by decide) (by decide) (by decide)

/-- C7: with extrusion on, the next-position buffer entry at the slot of
vertex `k` of a ring of `m` vertices holds the coordinates of vertex
`(k+1) mod m` of the same ring — and at the ring's last vertex
(`k + 1 = m`) it equals the position buffer entry at the slot of that ring's
first vertex (wrap-around within the ring). -/
theorem C7_next_wraparound (t : PolygonTesselator) (b : Bool) (gH : ℕ → ℚ)
    (fr : ℚ → ℚ) (hsz : t.sized)
    (hne : ∀ poly ∈ t.polygons, ∀ r ∈ poly, r ≠ ([] : PRing))
    (p r k : ℕ) (hp : p < t.polygons.length)
    (hr : r < (t.polygons.getD p []).length)
    (hk : k < ((t.polygons.getD p []).getD r []).length) :
    ∃ nbuf pbuf,
      (t.updatePositions true b gH fr).1.nextPositionsAttr = some nbuf ∧
      (t.updatePositions true b gH fr).1.positionsAttr = some pbuf ∧
      slot3 nbuf 0 (vIdx t.polygons p r k) =
        coords3 (gH p) (((t.polygons.getD p []).getD r []).getD
          ((k + 1) % ((t.polygons.getD p []).getD r []).length) []) ∧
      (k + 1 = ((t.polygons.getD p []).getD r []).length →
        slot3 nbuf 0 (vIdx t.polygons p r k) = slot3 pbuf 0 (vIdx t.polygons p r 0)) := by
  have hb := updatePositions_buffers t true b gH fr hsz hne
  refine ⟨nextOf (ringsOf t.polygons gH true), posOf (ringsOf t.polygons gH true),
    hb.2.2.1 rfl, hb.1, ?_, ?_⟩
  · exact next_slot t.polygons gH true p r k hp hr hk
  · intro hlast
    rw [next_slot t.polygons gH true p r k hp hr hk,
        positions_slot t.polygons gH true p r 0 hp hr (by omega)]
    rw [hlast, Nat.mod_self]

theorem C7_next_wraparound_witness :
    ∃ nbuf pbuf,
      ((PolygonTesselator.construct demoSet).updatePositions true false
          (fun _ => (2 : ℚ)) id).1.nextPositionsAttr = some nbuf ∧
      ((PolygonTesselator.construct demoSet).updatePositions true false
          (fun _ => (2 : ℚ)) id).1.positionsAttr = some pbuf ∧
      slot3 nbuf 0 (vIdx (PolygonTesselator.construct demoSet).polygons 0 0 2) =
        coords3 2 ((((PolygonTesselator.construct demoSet).polygons.getD 0 []).getD 0
          []).getD ((2 + 1) %
            (((PolygonTesselator.construct demoSet).polygons.getD 0 []).getD 0
              []).length) []) ∧
      (2 + 1 = (((PolygonTesselator.construct demoSet).polygons.getD 0 []).getD 0
          []).length →
        slot3 nbuf 0 (vIdx (PolygonTesselator.construct demoSet).polygons 0 0 2) =
          slot3 pbuf 0 (vIdx (PolygonTesselator.construct demoSet).polygons 0 0 0)) :=
  C7_next_wraparound (PolygonTesselator.construct demoSet) false (fun _ => (2 : ℚ)) id
    ⟨rfl, fun _ h => Option.noConfusion h, fun _ h => Option.noConfusion h,
     fun _ h => Option.noConfusion h, fun _ h => Option.noConfusion h⟩
    (by decide) 0 0 2 (by decide) (by decide) (by decide)

/-- C8: with the 64-bit-precision flag set, the low-part buffer entry at
every vertex's slot is exactly `(x - fround(x), y - fround(y))`
(`fround` kept uninterpreted), so adding `fround` of the original coordinate
to the stored low part reconstructs the original coordinate exactly in the
rational model — within any relative error bound, in particular 1e-5. -/
theorem C8_low_parts_roundtrip (t : PolygonTesselator) (e : Bool) (gH : ℕ → ℚ)
    (fr : ℚ → ℚ) (hsz : t.sized)
    (hne : ∀ poly ∈ t.polygons, ∀ r ∈ poly, r ≠ ([] : PRing))
    (p r k : ℕ) (hp : p < t.polygons.length)
    (hr : r < (t.polygons.getD p []).length)
    (hk : k < ((t.polygons.getD p []).getD r []).length) :
    ∃ lbuf,
      (t.updatePositions e true gH fr).1.positions64xyLowAttr = some lbuf ∧
      slot2 lbuf 0 (vIdx t.polygons p r k) =
        [jsGet (((t.polygons.getD p []).getD r []).getD k []) 0 -
           fr (jsGet (((t.polygons.getD p []).getD r []).getD k []) 0),
         jsGet (((t.polygons.getD p []).getD r []).getD k []) 1 -
           fr (jsGet (((t.polygons.getD p []).getD r []).getD k []) 1)] ∧
      fr (jsGet (((t.polygons.getD p []).getD r []).getD k []) 0) +
          (slot2 lbuf 0 (vIdx t.polygons p r k)).getD 0 0 =
        jsGet (((t.polygons.getD p []).getD r []).getD k []) 0 ∧
      fr (jsGet (((t.polygons.getD p []).getD r []).getD k []) 1) +
          (slot2 lbuf 0 (vIdx t.polygons p r k)).getD 1 0 =
        jsGet (((t.polygons.getD p []).getD r []).getD k []) 1 := by
  have hb := updatePositions_buffers t e true gH fr hsz hne
  refine ⟨lowOf fr (ringsOf t.polygons gH e), hb.2.1 rfl, ?_, ?_, ?_⟩
  · exact low_slot fr t.polygons gH e p r k hp hr hk
  · rw [low_slot fr t.polygons gH e p r k hp hr hk]
    simp only [lows2, List.getD_cons_zero]
    ring
  · rw [low_slot fr t.polygons gH e p r k hp hr hk]
    simp only [lows2, List.getD_cons_succ, List.getD_cons_zero]
    ring

theorem C8_low_parts_roundtrip_witness :
    ∃ lbuf,
      ((PolygonTesselator.construct demoSet).updatePositions false true
          (fun _ => (0 : ℚ)) id).1.positions64xyLowAttr = some lbuf ∧
      slot2 lbuf 0 (vIdx (PolygonTesselator.construct demoSet).polygons 0 0 1) =
        [jsGet ((((PolygonTesselator.construct demoSet).polygons.getD 0 []).getD 0
            []).getD 1 []) 0 -
           id (jsGet ((((PolygonTesselator.construct demoSet).polygons.getD 0 []).getD 0
            []).getD 1 []) 0),
         jsGet ((((PolygonTesselator.construct demoSet).polygons.getD 0 []).getD 0
            []).getD 1 []) 1 -
           id (jsGet ((((PolygonTesselator.construct demoSet).polygons.getD 0 []).getD 0
            []).getD 1 []) 1)] ∧
      id (jsGet ((((PolygonTesselator.construct demoSet).polygons.getD 0 []).getD 0
            []).getD 1 []) 0) +
          (slot2 lbuf 0 (vIdx (PolygonTesselator.construct demoSet).polygons 0 0 1)).getD 0 0 =
        jsGet ((((PolygonTesselator.construct demoSet).polygons.getD 0 []).getD 0
            []).getD 1 []) 0 ∧
      id (jsGet ((((PolygonTesselator.construct demoSet).polygons.getD 0 []).getD 0
            []).getD 1 []) 1) +
          (slot2 lbuf 0 (vIdx (PolygonTesselator.construct demoSet).polygons 0 0 1)).getD 1 0 =
        jsGet ((((PolygonTesselator.construct demoSet).polygons.getD 0 []).getD 0
            []).getD 1 []) 1 :=
  C8_low_parts_roundtrip (PolygonTesselator.construct demoSet) false (fun _ => (0 : ℚ)) id
    ⟨rfl, fun _ h => Option.noConfusion h, fun _ h => Option.noConfusion h,
     fun _ h => Option.noConfusion h, fun _ h => Option.noConfusion h⟩
    (by decide) 0 0 1 (by decide) (by decide) (by decide)
